import Mathlib

/-!
Verification development for the change-tracking core of the
mongoose-log-history plugin.

The JavaScript/TypeScript sources are shallowly embedded: JS runtime values
become the inductive type `Value`, JS records become association lists, and
every function of the core (`utils`, `change-tracking`, the update simulator
of `plugin.ts`) becomes a total Lean function mirroring the source line by
line.  JS object identity (`===` on objects, arrays and dates) is modelled by
an identity tag `oid` carried by the non-primitive constructors; two values
with the same tag stand for the same JS reference.  Numbers are modelled as
integers: none of the verified properties involves fractional values, `NaN`
or `-0`.  The handful of places where the model approximates an exotic JS
corner (locale date rendering, `NaN`-producing arithmetic) are marked by
comments; no theorem below depends on them.
-/

mutual
/-- A JavaScript runtime value.  `vDate`, `vArr` and `vObj` carry an identity
tag `oid` modelling reference identity; `vObj` fields are kept in insertion
order, mirroring JS own-property order. -/
inductive Value where
  | vUndef
  | vNull
  | vBool (b : Bool)
  | vNum (n : Int)
  | vStr (s : String)
  | vDate (oid : Nat) (ms : Int)
  | vArr (oid : Nat) (elems : ValueList)
  | vObj (oid : Nat) (fields : ObjFields)
inductive ValueList where
  | nil
  | cons (hd : Value) (tl : ValueList)
inductive ObjFields where
  | nil
  | cons (key : String) (val : Value) (tl : ObjFields)
end

namespace ValueList

/-- Convert an embedded element list to a Lean list. -/
def toList : ValueList → List Value
  | nil => []
  | cons x tl => x :: tl.toList

/-- Convert a Lean list of values to an embedded element list. -/
def ofList : List Value → ValueList
  | [] => nil
  | x :: tl => cons x (ofList tl)

end ValueList

namespace ObjFields

/-- Look a key up among the fields, first match wins; missing keys read as
JS `undefined`. -/
def lookup : ObjFields → String → Value
  | nil, _ => Value.vUndef
  | cons k v tl, key => if k = key then v else tl.lookup key

/-- Optional lookup, used where the source distinguishes a missing key. -/
def lookupOpt : ObjFields → String → Option Value
  | nil, _ => none
  | cons k v tl, key => if k = key then some v else tl.lookupOpt key

/-- Number of fields (JS `Object.keys(o).length` for well-formed objects). -/
def length : ObjFields → Nat
  | nil => 0
  | cons _ _ tl => tl.length + 1

/-- Own keys in insertion order. -/
def keys : ObjFields → List String
  | nil => []
  | cons k _ tl => k :: tl.keys

/-- Own entries in insertion order. -/
def toPairs : ObjFields → List (String × Value)
  | nil => []
  | cons k v tl => (k, v) :: tl.toPairs

/-- Assign a key: replace the first occurrence in place, otherwise append —
the JS own-property update order. -/
def setKey : ObjFields → String → Value → ObjFields
  | nil, k, v => cons k v nil
  | cons k0 v0 tl, k, v => if k0 = k then cons k0 v tl else cons k0 v0 (tl.setKey k v)

/-- Membership test for a key (JS `in` / `hasOwnProperty`). -/
def hasKey : ObjFields → String → Bool
  | nil, _ => false
  | cons k _ tl, key => k = key || tl.hasKey key

end ObjFields

/-- JS truthiness of a value. -/
def truthy : Value → Bool
  | Value.vUndef => false
  | Value.vNull => false
  | Value.vBool b => b
  | Value.vNum n => n != 0
  | Value.vStr s => s != ""
  | Value.vDate _ _ => true
  | Value.vArr _ _ => true
  | Value.vObj _ _ => true

/-- JS strict equality `===` (also SameValueZero on this value space, which
has no `NaN` and no `-0`): primitives by value, dates, arrays and objects by
reference identity. -/
def strictEq : Value → Value → Bool
  | Value.vUndef, Value.vUndef => true
  | Value.vNull, Value.vNull => true
  | Value.vBool a, Value.vBool b => a == b
  | Value.vNum a, Value.vNum b => a == b
  | Value.vStr a, Value.vStr b => a == b
  | Value.vDate i _, Value.vDate j _ => i == j
  | Value.vArr i _, Value.vArr j _ => i == j
  | Value.vObj i _, Value.vObj j _ => i == j
  | _, _ => false

/-- Check whether a value is an array (JS `Array.isArray`). -/
def isArrV : Value → Bool
  | Value.vArr _ _ => true
  | _ => false

/-- Check whether `typeof v === 'object'` would hold for a non-null value:
objects, arrays and dates. -/
def typeofObject : Value → Bool
  | Value.vObj _ _ => true
  | Value.vArr _ _ => true
  | Value.vDate _ _ => true
  | _ => false

/-- Source `isObject` from utils: a plain object — not an array, not a Date,
not null. -/
def isObjectV : Value → Bool
  | Value.vObj _ _ => true
  | _ => false

/-- Source `isDate` from utils. -/
def isDateV : Value → Bool
  | Value.vDate _ _ => true
  | _ => false

/-- Source `exists` from utils (named `existsVal` here because `exists` is
reserved): a value exists unless it is null, undefined or the empty
string. -/
def existsVal : Value → Bool
  | Value.vUndef => false
  | Value.vNull => false
  | Value.vStr s => s != ""
  | _ => true

/-- Rendering of `Date.prototype.toISOString`.  The calendar arithmetic of
the real method is not reproduced: the epoch milliseconds are embedded
injectively in a fixed template.  No theorem depends on the concrete shape
of this string. -/
def toISOString (ms : Int) : String :=
  "1970-01-01T00:00:00." ++ toString ms ++ "Z"

/-- Source `isIsoDateString` from utils: the regex
`^\d\x7b4\x7d-\d\x7b2\x7d-\d\x7b2\x7dT\d\x7b2\x7d:\d\x7b2\x7d:\d\x7b2\x7d.\d\x7b3\x7dZ$`
checked positionally (the unescaped dot of the regex matches any
character). -/
def isIsoDateString (s : String) : Bool :=
  match s.toList with
  | [y1, y2, y3, y4, d1, m1, m2, d2, a1, a2, t, h1, h2, c1, n1, n2, c2, s1, s2, _, f1, f2, f3, z] =>
      y1.isDigit && y2.isDigit && y3.isDigit && y4.isDigit && d1 == '-' &&
      m1.isDigit && m2.isDigit && d2 == '-' && a1.isDigit && a2.isDigit &&
      t == 'T' && h1.isDigit && h2.isDigit && c1 == ':' && n1.isDigit &&
      n2.isDigit && c2 == ':' && s1.isDigit && s2.isDigit &&
      f1.isDigit && f2.isDigit && f3.isDigit && z == 'Z'
  | _ => false

mutual
/-- Source `isEqual` from utils: structural deep equality.  The `a === b`
short-circuit of the source is `strictEq`; dates compare by epoch, arrays
element-wise, plain objects by key-count plus per-key recursion, everything
else falls back to strict equality (hence `false` when the short-circuit
already failed). -/
def isEqual (a b : Value) : Bool :=
  if strictEq a b then true
  else
    match a, b with
    | Value.vDate _ ta, Value.vDate _ tb => ta == tb
    | Value.vArr _ xs, Value.vArr _ ys => isEqualList xs ys
    | Value.vObj _ fa, Value.vObj _ fb =>
        fa.length == fb.length && isEqualFields fa fb
    | _, _ => false
def isEqualList : ValueList → ValueList → Bool
  | ValueList.nil, ValueList.nil => true
  | ValueList.cons x xs, ValueList.cons y ys => isEqual x y && isEqualList xs ys
  | _, _ => false
def isEqualFields : ObjFields → ObjFields → Bool
  | ObjFields.nil, _ => true
  | ObjFields.cons k v tl, fb =>
      (match fb.lookupOpt k with
       | some w => isEqual v w
       | none => false) && isEqualFields tl fb
end

/-- Source `areValuesEqual` from utils: deep equality with special handling
of null/undefined and refusal of cross-type primitive coercion. -/
def areValuesEqual (a b : Value) : Bool :=
  match a, b with
  | Value.vNull, Value.vNull => true
  | Value.vUndef, Value.vUndef => true
  | Value.vNull, _ => false
  | _, Value.vNull => false
  | Value.vUndef, _ => false
  | _, Value.vUndef => false
  | Value.vDate _ ta, Value.vDate _ tb => ta == tb
  | Value.vDate _ ta, Value.vStr s => toISOString ta == s
  | Value.vStr s, Value.vDate _ tb => s == toISOString tb
  | Value.vNum _, Value.vStr _ => false
  | Value.vStr _, Value.vNum _ => false
  | Value.vBool _, Value.vStr _ => false
  | Value.vStr _, Value.vBool _ => false
  | Value.vArr _ _, Value.vArr _ _ => isEqual a b
  | Value.vObj _ _, Value.vObj _ _ => isEqual a b
  | _, _ => strictEq a b

mutual
/-- JS `String()` coercion.  Arrays render as their elements joined by commas
(with null/undefined as empty), objects as `[object Object]`.  `String(date)`
is locale-dependent in JS and is modelled by the ISO placeholder. -/
def jsStringCoerce : Value → String
  | Value.vUndef => "undefined"
  | Value.vNull => "null"
  | Value.vBool b => if b then "true" else "false"
  | Value.vNum n => toString n
  | Value.vStr s => s
  | Value.vDate _ ms => toISOString ms
  | Value.vArr _ xs => jsStringCoerceList xs
  | Value.vObj _ _ => "[object Object]"
def jsStringCoerceList : ValueList → String
  | ValueList.nil => ""
  | ValueList.cons x tl =>
      let first :=
        match x with
        | Value.vUndef => ""
        | Value.vNull => ""
        | v => jsStringCoerce v
      match tl with
      | ValueList.nil => first
      | _ => first ++ "," ++ jsStringCoerceList tl
end

/-- Escape one character for a JSON string literal (the control characters
beyond tab, newline and carriage return do not occur in the developments
below). -/
def escapeJsonChar (c : Char) : String :=
  if c = '"' then "\\\""
  else if c = '\\' then "\\\\"
  else if c = '\n' then "\\n"
  else if c = '\t' then "\\t"
  else if c = '\r' then "\\r"
  else String.singleton c

/-- Escape a string for a JSON string literal. -/
def escapeJson (s : String) : String :=
  String.join (s.toList.map escapeJsonChar)

/-- Check whether an object still has a JSON-serializable entry; in this
value model only `undefined`-valued keys are skipped by `JSON.stringify`. -/
def objHasJsonEntry : ObjFields → Bool
  | ObjFields.nil => false
  | ObjFields.cons _ Value.vUndef tl => objHasJsonEntry tl
  | ObjFields.cons _ _ _ => true

mutual
/-- JS `JSON.stringify`.  `none` models the call returning `undefined`
(top-level `undefined`); inside arrays `undefined` renders as `null`, inside
objects `undefined`-valued keys are skipped.  Dates serialize through
`toJSON` as quoted ISO strings.  Cyclic structures — the source's reason for
its try/catch — are unrepresentable in an inductive value, so serialization
never fails here. -/
def jsonStringify : Value → Option String
  | Value.vUndef => none
  | Value.vNull => some "null"
  | Value.vBool b => some (if b then "true" else "false")
  | Value.vNum n => some (toString n)
  | Value.vStr s => some ("\"" ++ escapeJson s ++ "\"")
  | Value.vDate _ ms => some ("\"" ++ escapeJson (toISOString ms) ++ "\"")
  | Value.vArr _ xs => some ("[" ++ jsonStringifyArr xs ++ "]")
  | Value.vObj _ fs => some ("\x7b" ++ jsonStringifyObj fs ++ "\x7d")
def jsonStringifyArr : ValueList → String
  | ValueList.nil => ""
  | ValueList.cons x tl =>
      let first := (jsonStringify x).getD "null"
      match tl with
      | ValueList.nil => first
      | _ => first ++ "," ++ jsonStringifyArr tl
def jsonStringifyObj : ObjFields → String
  | ObjFields.nil => ""
  | ObjFields.cons k v tl =>
      match v with
      | Value.vUndef => jsonStringifyObj tl
      | _ =>
          let entry := "\"" ++ escapeJson k ++ "\":" ++ ((jsonStringify v).getD "null")
          if objHasJsonEntry tl then entry ++ "," ++ jsonStringifyObj tl
          else entry
end

/-- Whitespace as trimmed by the JS `ToNumber` conversion (the common
cases). -/
def isWsChar (c : Char) : Bool :=
  c = ' ' || c = '\t' || c = '\n' || c = '\r'

/-- Trim leading and trailing whitespace (kernel-reducible replacement for
the library trim). -/
def trimWs (s : String) : String :=
  String.mk (((s.toList.dropWhile isWsChar).reverse.dropWhile isWsChar).reverse)

/-- Accumulating loop of `digitsToNat`. -/
def digitsToNatAux : List Char → Nat → Option Nat
  | [], acc => some acc
  | c :: rest, acc =>
      if c.isDigit then digitsToNatAux rest (acc * 10 + (c.toNat - 48))
      else none

/-- Digits of a decimal literal to a natural number; `none` on the empty
list or any non-digit. -/
def digitsToNat : List Char → Option Nat
  | [] => none
  | cs => digitsToNatAux cs 0

/-- Signed decimal integer literal. -/
def parseIntLit (s : String) : Option Int :=
  match s.toList with
  | '-' :: rest => (digitsToNat rest).map (fun n => -(n : Int))
  | '+' :: rest => (digitsToNat rest).map (fun n => (n : Int))
  | l => (digitsToNat l).map (fun n => (n : Int))

/-- Model of `Number(s)` restricted to integer outcomes, as consumed by
`Number.isInteger` in the path walker: decimal integer literals parse, the
empty or all-whitespace string parses as `0`, everything else (including
fractional, hex and exponent forms, which never denote integers the walker
accepts or are exotic enough not to matter here) is rejected. -/
def parseIndex (s : String) : Option Int :=
  if trimWs s = "" then some 0 else parseIntLit (trimWs s)

/-- Element access of a JS array by a possibly out-of-range integer index:
negative or too-large indices read as `undefined`. -/
def listGetInt (xs : List Value) (i : Int) : Value :=
  if i < 0 then Value.vUndef
  else (xs.drop i.toNat).headD Value.vUndef

/-- Guarded JS property read `v[k]` for a non-null base value: object fields
by key, arrays by canonical index (plus `length`), strings by index (plus
`length`), everything else — including the unreachable null/undefined bases,
which the sources always guard — reads as `undefined`. -/
def jsIndexProp : Value → String → Value
  | Value.vObj _ fs, k => fs.lookup k
  | Value.vArr _ xs, k =>
      if k = "length" then Value.vNum (xs.toList.length : Int)
      else
        match digitsToNat k.toList with
        | some i => if toString i = k then (xs.toList.drop i).headD Value.vUndef else Value.vUndef
        | none => Value.vUndef
  | Value.vStr s, k =>
      if k = "length" then Value.vNum (s.toList.length : Int)
      else
        match digitsToNat k.toList with
        | some i =>
            if toString i = k then
              match s.toList.drop i with
              | [] => Value.vUndef
              | c :: _ => Value.vStr (String.singleton c)
            else Value.vUndef
        | none => Value.vUndef
  | _, _ => Value.vUndef

/-- Split a string on the dot separator, JS `path.split('.')` (the empty
string splits to a single empty segment). -/
def splitDotAux : List Char → List Char → List String
  | [], acc => [String.mk acc.reverse]
  | c :: rest, acc =>
      if c = '.' then String.mk acc.reverse :: splitDotAux rest []
      else splitDotAux rest (c :: acc)

/-- JS `s.split('.')`. -/
def splitOnDot (s : String) : List String :=
  splitDotAux s.toList []

/-- Loop body of `getValueByPath` from utils (the TS version): walk the split
segments, bailing out to `undefined` on null, on a non-integer index into an
array, and on any non-object intermediate. -/
def walkSegments : Value → List String → Value
  | cur, [] => cur
  | Value.vNull, _ :: _ => Value.vUndef
  | Value.vArr _ xs, seg :: rest =>
      match parseIndex seg with
      | some i => walkSegments (listGetInt xs.toList i) rest
      | none => Value.vUndef
  | Value.vObj oid fs, seg :: rest => walkSegments (jsIndexProp (Value.vObj oid fs) seg) rest
  | Value.vDate oid ms, seg :: rest => walkSegments (jsIndexProp (Value.vDate oid ms) seg) rest
  | _, _ :: _ => Value.vUndef

/-- Source `getValueByPath` from utils (the TS version used by the tracking
engine): falsy roots read as `undefined`; then the whole path is first tried
as a literal flat key and returned when truthy; otherwise the path is split
on `.` and walked segment by segment. -/
def getValueByPath (obj : Value) (path : String) : Value :=
  if !(truthy obj) then Value.vUndef
  else
    let current := jsIndexProp obj path
    if truthy current then current
    else walkSegments obj (splitOnDot path)

/-- Segment walker written from the specification's words (§4.1/C8): split on
`.`, walk element by element, return `undefined` the instant an intermediate
is missing, null, or not indexable, handling object-keyed and numeric
array-index segments.  It deliberately has no flat-key shortcut; comparing it
with `getValueByPath` settles the refinement claim. -/
def walkPathSpec (obj : Value) (path : String) : Value :=
  walkSegments obj (splitOnDot path)

/-- JS `a || b`. -/
def jsOr (a b : Value) : Value :=
  if truthy a then a else b

/-- JS `a ?? b` (nullish coalescing). -/
def jsNullish (a b : Value) : Value :=
  match a with
  | Value.vUndef => b
  | Value.vNull => b
  | v => v

/-- Coercion `Array.isArray(v) ? v : []` used throughout the sources for
possibly-missing or malformed array inputs. -/
def asArray : Value → List Value
  | Value.vArr _ xs => xs.toList
  | _ => []

/-- Recursion of the source `setByPath` over the split path parts, carried
out functionally: for every intermediate part whose current value is falsy or
not `typeof 'object'` a fresh empty object is substituted, and the leaf part
is overwritten.  A property write into an array or Date intermediate — which
JS would perform on the array/Date object itself — is not representable in
this model and is dropped; no development below takes that branch. -/
def setParts : ObjFields → List String → Value → ObjFields
  | m, [], _ => m
  | m, [p], v => m.setKey p v
  | m, p :: rest, v =>
      match m.lookup p with
      | Value.vObj oid fs => m.setKey p (Value.vObj oid (setParts fs rest v))
      | Value.vArr oid xs => m.setKey p (Value.vArr oid xs)
      | Value.vDate oid ms => m.setKey p (Value.vDate oid ms)
      | _ => m.setKey p (Value.vObj 0 (setParts ObjFields.nil rest v))

/-- Source `setByPath` from utils: set a value at a dotted path, creating
intermediate objects as needed, overwriting the leaf. -/
def setByPath (m : ObjFields) (path : String) (value : Value) : ObjFields :=
  setParts m (splitOnDot path) value

/-- Assignment into a string-keyed association list with JS own-property
update order: replace the first occurrence in place, otherwise append. -/
def assocSet : List (String × Value) → String → Value → List (String × Value)
  | [], k, v => [(k, v)]
  | (k0, v0) :: tl, k, v =>
      if k0 = k then (k0, v) :: tl else (k0, v0) :: assocSet tl k v

/-- Lookup in a string-keyed association list, first match wins. -/
def assocLookup : List (String × Value) → String → Option Value
  | [], _ => none
  | (k0, v0) :: tl, k => if k0 = k then some v0 else assocLookup tl k

/-- Read a map entry the way JS reads a missing property: `undefined` when
absent. -/
def assocGet (m : List (String × Value)) (k : String) : Value :=
  (assocLookup m k).getD Value.vUndef

/-- Source `arrayToKeyMap` from utils: index the elements of an array by the
string coercion of their (truthy) key field; elements that are falsy or lack
a truthy key are silently dropped; a repeated key keeps its first position
but the last element wins. -/
def arrayToKeyMap (arr : List Value) (key : String) : List (String × Value) :=
  arr.foldl
    (fun map item =>
      if truthy item && truthy (jsIndexProp item key) then
        assocSet map (jsStringCoerce (jsIndexProp item key)) item
      else map)
    []

/-- Iteration order of a JS `Set` built from a list: first occurrences are
kept, the `seen` accumulator carries the elements already emitted.  `eq` is
the membership test (SameValueZero). -/
def dedupByAux (eq : α → α → Bool) (seen : List α) : List α → List α
  | [] => []
  | x :: xs =>
      if seen.any (fun y => eq y x) then dedupByAux eq seen xs
      else x :: dedupByAux eq (x :: seen) xs

/-- Elements of a list in JS `Set` iteration order (insertion order of first
occurrences). -/
def dedupBy (eq : α → α → Bool) (l : List α) : List α :=
  dedupByAux eq [] l

/-- The result shape of `diffSimpleArray`. -/
structure ArrayDiff where
  added : List Value
  removed : List Value

/-- Source `diffSimpleArray` from utils: both sides become `Set`s — so
duplicates collapse and membership is SameValueZero, i.e. `strictEq` — and
`added`/`removed` are the set differences in iteration order.  The source's
own `Array.isArray` guard on its parameters is the identity here because the
callers pass already-coerced arrays (see `asArray` at the call sites). -/
def diffSimpleArray (before after : List Value) : ArrayDiff :=
  { added := (dedupBy strictEq after).filter (fun x => !(before.any (fun y => strictEq y x)))
    removed := (dedupBy strictEq before).filter (fun x => !(after.any (fun y => strictEq y x))) }

/-- A `string | null | undefined` result, the type of `valueToString` and of
the `from_value`/`to_value` slots of a change record. -/
inductive StrVal where
  | str (s : String)
  | nullv
  | undef
deriving DecidableEq

/-- A mask rule attached to a tracked field: a literal replacement string or
a function from the real value to the display result. -/
inductive Mask where
  | lit (s : String)
  | fn (f : Value → StrVal)

/-- Stringification of a value for a change record.  The unmasked path is
the source `valueToString` of utils (part_008): null/undefined pass through,
dates render as ISO, ISO-looking strings pass through (as any string does),
objects render as compact JSON with a best-effort `String()` fallback, other
scalars via `String()`.

Modelled from the spec: the optional mask parameter.  The current
`utils.ts` — the one `change-tracking.ts` calls as
`valueToString(value, field.mask)` — is not part of the source snapshot
(part_008 predates mask support), so the mask handling follows §4.2 of the
specification: null/undefined still pass through unchanged (the callers
normalise `null`/`undefined` results even for masked fields), a literal mask
is substituted regardless of the value, a function mask is applied to the
value and its result used. -/
def valueToString (val : Value) (mask : Option Mask) : StrVal :=
  match val with
  | Value.vNull => StrVal.nullv
  | Value.vUndef => StrVal.undef
  | _ =>
    match mask with
    | some (Mask.lit m) => StrVal.str m
    | some (Mask.fn f) => f val
    | none =>
      match val with
      | Value.vDate _ ms => StrVal.str (toISOString ms)
      | Value.vStr s => if isIsoDateString s then StrVal.str s else StrVal.str s
      | Value.vArr oid xs => StrVal.str ((jsonStringify (Value.vArr oid xs)).getD (jsStringCoerce (Value.vArr oid xs)))
      | Value.vObj oid fs => StrVal.str ((jsonStringify (Value.vObj oid fs)).getD (jsStringCoerce (Value.vObj oid fs)))
      | v => StrVal.str (jsStringCoerce v)

/-- Normalisation `v === null || v === undefined ? null : v` applied by the
array processors to `valueToString` results. -/
def toNullNorm : StrVal → StrVal
  | StrVal.str s => StrVal.str s
  | _ => StrVal.nullv

/-- The `contextFields` configuration: either a flat list of document paths
or an object with optional `doc` and `item` path lists. -/
inductive ContextFields where
  | flat (paths : List String)
  | split (doc : Option (List String)) (item : Option (List String))

/-- Build the `doc` bucket of a log context: for each configured path,
resolve from the updated document first, falling back (on a falsy result,
the JS `||`) to the original document, and write the value back at the same
dotted path. -/
def buildDocBucket (paths : List String) (originalDoc updatedDoc : Value) : ObjFields :=
  paths.foldl
    (fun bucket ctxField =>
      setByPath bucket ctxField
        (jsOr (getValueByPath updatedDoc ctxField) (getValueByPath originalDoc ctxField)))
    ObjFields.nil

/-- Build the `item` bucket of a log context: resolve each path against the
preferred array item (`afterItem || beforeItem`); with no item available the
bucket stays empty. -/
def buildItemBucket (paths : List String) (beforeItem afterItem : Value) : ObjFields :=
  let item := jsOr afterItem beforeItem
  if truthy item then
    paths.foldl (fun bucket ctxField => setByPath bucket ctxField (getValueByPath item ctxField)) ObjFields.nil
  else ObjFields.nil

/-- Source `extractLogContext` from change-tracking: `undefined` when no
context fields are configured; a flat list produces only a `doc` bucket; the
object form produces a `doc` bucket when `doc` is an array and an `item`
bucket (possibly empty) when `item` is an array. -/
def extractLogContext (contextFields : Option ContextFields)
    (originalDoc updatedDoc : Value) (beforeItem afterItem : Value) : Option ObjFields :=
  match contextFields with
  | none => none
  | some (ContextFields.flat paths) =>
      some (ObjFields.cons "doc" (Value.vObj 0 (buildDocBucket paths originalDoc updatedDoc)) ObjFields.nil)
  | some (ContextFields.split docPaths itemPaths) =>
      let base :=
        match docPaths with
        | some paths => ObjFields.cons "doc" (Value.vObj 0 (buildDocBucket paths originalDoc updatedDoc)) ObjFields.nil
        | none => ObjFields.nil
      let withItem :=
        match itemPaths with
        | some paths => base.setKey "item" (Value.vObj 0 (buildItemBucket paths beforeItem afterItem))
        | none => base
      some withItem

/-- The `arrayType` tag of a tracked-field configuration: the source strings
`'simple'` and `'custom-key'`. -/
inductive ArrayType where
  | simple
  | customKey
deriving DecidableEq

mutual
/-- A tracked-field configuration node (`TrackedField` of types.ts): dotted
path `value`, optional `arrayType`, `arrayKey`, `valueField`, mask rule,
context-fields rule and nested `trackedFields` children. -/
inductive TrackedField where
  | mk (value : String) (arrayType : Option ArrayType) (arrayKey : Option String)
       (valueField : Option String) (mask : Option Mask)
       (contextFields : Option ContextFields) (trackedFields : Option TrackedFieldList)
inductive TrackedFieldList where
  | nil
  | cons (hd : TrackedField) (tl : TrackedFieldList)
end

namespace TrackedField

/-- The dotted path of the field. -/
def value : TrackedField → String
  | mk v _ _ _ _ _ _ => v

/-- The array handling tag, when configured. -/
def arrayType : TrackedField → Option ArrayType
  | mk _ t _ _ _ _ _ => t

/-- The key field of a custom-key array, when configured. -/
def arrayKey : TrackedField → Option String
  | mk _ _ k _ _ _ _ => k

/-- The scalar surfaced as from/to for keyed elements, when configured. -/
def valueField : TrackedField → Option String
  | mk _ _ _ f _ _ _ => f

/-- The mask rule, when configured. -/
def mask : TrackedField → Option Mask
  | mk _ _ _ _ m _ _ => m

/-- The context-fields rule, when configured. -/
def contextFields : TrackedField → Option ContextFields
  | mk _ _ _ _ _ c _ => c

/-- The nested children, when configured. -/
def trackedFields : TrackedField → Option TrackedFieldList
  | mk _ _ _ _ _ _ ch => ch

end TrackedField

/-- Truthiness of an optional string option (`field.arrayKey`,
`field.valueField`): present and non-empty. -/
def truthyStrOpt : Option String → Bool
  | some s => s != ""
  | none => false

/-- The change kind of a record. -/
inductive ChangeType where
  | add
  | edit
  | remove
deriving DecidableEq

/-- A field-level change record (`FieldLog` of types.ts).  The `context` key
is absent — not `undefined`-valued — when no context was extracted. -/
structure FieldLog where
  field_name : String
  from_value : StrVal
  to_value : StrVal
  change_type : ChangeType
  context : Option ObjFields

/-- Source `processGenericFieldChanges` from change-tracking: classify a
non-array field by the existence of its two sides, stringify both sides with
the field's mask, and attach the extracted context. -/
def processGenericFieldChanges (field : TrackedField) (beforeValue afterValue : Value)
    (originalDoc updatedDoc : Value) (parentFieldName : Option String)
    (beforeItem afterItem : Value) : List FieldLog :=
  let fieldName := parentFieldName.getD field.value
  let beforeExists := existsVal beforeValue
  let afterExists := existsVal afterValue
  let beforeStr := valueToString beforeValue field.mask
  let afterStr := valueToString afterValue field.mask
  let context := extractLogContext field.contextFields originalDoc updatedDoc beforeItem afterItem
  if !beforeExists && !afterExists then []
  else if !beforeExists && afterExists then
    [{ field_name := fieldName, from_value := beforeStr, to_value := afterStr
       change_type := ChangeType.add, context := context }]
  else if beforeExists && !afterExists then
    [{ field_name := fieldName, from_value := beforeStr, to_value := afterStr
       change_type := ChangeType.remove, context := context }]
  else if !(areValuesEqual beforeValue afterValue) then
    [{ field_name := fieldName, from_value := beforeStr, to_value := afterStr
       change_type := ChangeType.edit, context := context }]
  else []

/-- Source `processSimpleArrayChanges` from change-tracking: coerce both
sides to arrays, take the set diff, and emit one `add` record per added
element and one `remove` record per removed element, values normalised to
null when the stringification yields null/undefined. -/
def processSimpleArrayChanges (field : TrackedField) (beforeValue afterValue : Value)
    (originalDoc updatedDoc : Value) (parentFieldName : Option String)
    (beforeItem afterItem : Value) : List FieldLog :=
  let beforeArray := asArray beforeValue
  let afterArray := asArray afterValue
  let d := diffSimpleArray beforeArray afterArray
  let fieldName := parentFieldName.getD field.value
  let context := extractLogContext field.contextFields originalDoc updatedDoc beforeItem afterItem
  (d.added.map (fun item =>
    { field_name := fieldName, from_value := StrVal.nullv
      to_value := toNullNorm (valueToString item field.mask)
      change_type := ChangeType.add, context := context })) ++
  (d.removed.map (fun item =>
    { field_name := fieldName
      from_value := toNullNorm (valueToString item field.mask)
      to_value := StrVal.nullv
      change_type := ChangeType.remove, context := context }))

/-- JS `typeof v === 'object'` including the null case (typeof null is
`'object'`). -/
def typeofObjectOrNull : Value → Bool
  | Value.vNull => true
  | v => typeofObject v

/-- Own enumerable entries of a value as seen by an object-literal spread:
object fields, array elements under their index keys, nothing for
everything else (spreading null or a Date contributes no entries; strings,
whose spread would contribute indexed characters, never reach a spread in
the sources because of the `typeof 'object'` guards). -/
def spreadEntries : Value → List (String × Value)
  | Value.vObj _ fs => fs.toPairs
  | Value.vArr _ xs => (xs.toList.enum.map (fun p => (toString p.1, p.2)))
  | _ => []

/-- Object-literal spread `\x7b...a, ...b\x7d` over the own entries of two
values. -/
def spreadMerge (a b : Value) : Value :=
  Value.vObj 0
    ((spreadEntries a ++ spreadEntries b).foldl (fun m p => m.setKey p.1 p.2) ObjFields.nil)

/-- Entry-wise merge of a record's own context over the parent context, the
loop body of `processSubFieldChanges`. -/
def mergeCtxEntries (merged : ObjFields) : ObjFields → ObjFields
  | ObjFields.nil => merged
  | ObjFields.cons k v tl =>
      let cur := merged.lookup k
      let newVal :=
        if truthy cur && typeofObject cur && typeofObjectOrNull v then
          spreadMerge cur v
        else v
      mergeCtxEntries (merged.setKey k newVal) tl

mutual
/-- Source `processCustomKeyArrayChanges` from change-tracking: bail out on a
missing/empty `arrayKey`; index both coerced arrays by the key field; walk
the set-union of the keys; emit an `add`/`remove` per one-sided key (values
surfaced through `valueField` when configured, normalised to null) and
recurse into the children for keys present on both sides. -/
def processCustomKeyArrayChanges (field : TrackedField) (beforeValue afterValue : Value)
    (originalDoc updatedDoc : Value) (parentFieldName : Option String) : List FieldLog :=
  match field with
  | TrackedField.mk value _ arrayKeyOpt valueFieldOpt maskOpt ctxOpt childrenOpt =>
    if !(truthyStrOpt arrayKeyOpt) then []
    else
      let arrayKey := arrayKeyOpt.getD ""
      let beforeArray := asArray beforeValue
      let afterArray := asArray afterValue
      let beforeMap := arrayToKeyMap beforeArray arrayKey
      let afterMap := arrayToKeyMap afterArray arrayKey
      let allKeys := dedupBy (fun a b => a == b) (beforeMap.map Prod.fst ++ afterMap.map Prod.fst)
      let fieldName := parentFieldName.getD value
      allKeys.flatMap (fun key =>
        let beforeItem := assocGet beforeMap key
        let afterItem := assocGet afterMap key
        let beforeExists := existsVal beforeItem
        let afterExists := existsVal afterItem
        let fvRaw :=
          if truthy beforeItem && truthyStrOpt valueFieldOpt then
            valueToString (jsIndexProp beforeItem (valueFieldOpt.getD "")) maskOpt
          else StrVal.undef
        let tvRaw :=
          if truthy afterItem && truthyStrOpt valueFieldOpt then
            valueToString (jsIndexProp afterItem (valueFieldOpt.getD "")) maskOpt
          else StrVal.undef
        let fromValue := toNullNorm fvRaw
        let toValue := toNullNorm tvRaw
        let context := extractLogContext ctxOpt originalDoc updatedDoc beforeItem afterItem
        if !beforeExists && !afterExists then []
        else if !beforeExists && afterExists then
          [{ field_name := fieldName, from_value := StrVal.nullv, to_value := toValue
             change_type := ChangeType.add, context := context }]
        else if beforeExists && !afterExists then
          [{ field_name := fieldName, from_value := fromValue, to_value := StrVal.nullv
             change_type := ChangeType.remove, context := context }]
        else
          match childrenOpt with
          | some children =>
              processSubFieldChanges children value beforeItem afterItem originalDoc updatedDoc
                (some fieldName) context
          | none => [])
/-- Source `processSubFieldChanges` from change-tracking.  The source
receives the whole parent field and consults only `field.trackedFields` and
`field.value`; those two are passed here directly (`children`, `fieldValue`)
so that the mutual recursion is structural.  Per child: resolve both sides
inside the array items, qualify the name as `parent.child`, dispatch by the
child's `arrayType` (a custom-key child without a truthy `arrayKey` falls
through to the generic processor), then merge the inherited parent context
into every produced record. -/
def processSubFieldChanges (children : TrackedFieldList) (fieldValue : String)
    (beforeItem afterItem : Value) (originalDoc updatedDoc : Value)
    (parentFieldName : Option String) (parentContext : Option ObjFields) : List FieldLog :=
  match children with
  | TrackedFieldList.nil => []
  | TrackedFieldList.cons subField rest =>
      let subPath := subField.value
      let beforeVal := getValueByPath beforeItem subPath
      let afterVal := getValueByPath afterItem subPath
      let fieldName := (parentFieldName.getD fieldValue) ++ "." ++ subPath
      let subLogs :=
        if subField.arrayType = some ArrayType.simple then
          processSimpleArrayChanges subField beforeVal afterVal originalDoc updatedDoc
            (some fieldName) beforeItem afterItem
        else if subField.arrayType = some ArrayType.customKey ∧ truthyStrOpt subField.arrayKey = true then
          processCustomKeyArrayChanges subField beforeVal afterVal originalDoc updatedDoc (some fieldName)
        else
          processGenericFieldChanges subField beforeVal afterVal originalDoc updatedDoc
            (some fieldName) beforeItem afterItem
      let subLogs2 :=
        match parentContext with
        | none => subLogs
        | some pc =>
            subLogs.map (fun subLog =>
              match subLog.context with
              | none => { subLog with context := some pc }
              | some c => { subLog with context := some (mergeCtxEntries pc c) })
      subLogs2 ++
        processSubFieldChanges rest fieldValue beforeItem afterItem originalDoc updatedDoc
          parentFieldName parentContext
end

/-- Source `getTrackedChanges` from change-tracking, the diff entry point:
for each configured field (skipping falsy paths) resolve both sides at the
dotted path and dispatch on `arrayType`. -/
def getTrackedChanges (originalDoc updatedDoc : Value) (trackedFields : TrackedFieldList) : List FieldLog :=
  match trackedFields with
  | TrackedFieldList.nil => []
  | TrackedFieldList.cons field rest =>
      (if field.value = "" then []
       else
         let beforeValue := getValueByPath originalDoc field.value
         let afterValue := getValueByPath updatedDoc field.value
         if field.arrayType = some ArrayType.simple then
           processSimpleArrayChanges field beforeValue afterValue originalDoc updatedDoc none
             Value.vNull Value.vNull
         else if field.arrayType = some ArrayType.customKey then
           processCustomKeyArrayChanges field beforeValue afterValue originalDoc updatedDoc none
         else
           processGenericFieldChanges field beforeValue afterValue originalDoc updatedDoc none
             Value.vNull Value.vNull)
      ++ getTrackedChanges originalDoc updatedDoc rest

/-- Source `simulateAddToSet` from plugin.ts: coerce the original to an
array, wrap a non-array operand; with a (truthy) `arrayKey` only non-array
objects are considered and an incoming element is skipped when the current
key map already holds a truthy entry for its stringified key; without a key,
elements structurally equal (`isEqual`) to one already present are
skipped. -/
def simulateAddToSet (originalArr : Value) (addArr : Value) (arrayKey : Option String) : List Value :=
  let original := asArray originalArr
  let toAdd :=
    match addArr with
    | Value.vArr _ xs => xs.toList
    | v => [v]
  if truthyStrOpt arrayKey then
    let ak := arrayKey.getD ""
    let init : List Value × List (String × Value) := (original, arrayToKeyMap original ak)
    (toAdd.foldl
      (fun acc item =>
        if truthy item && typeofObject item && !(isArrV item) then
          let key := jsStringCoerce (jsIndexProp item ak)
          if truthy (assocGet acc.2 key) then acc
          else (acc.1 ++ [item], assocSet acc.2 key item)
        else acc)
      init).1
  else
    toAdd.foldl
      (fun res item => if res.any (fun x => isEqual x item) then res else res ++ [item])
      original

/-- Source `simulatePull` from plugin.ts: a non-array original yields the
empty list; a non-object (or array, or null) query removes the structurally
equal elements; an object query keeps non-object elements and removes every
object element matching the query on all of its keys (a Date query, whose
key set is empty, therefore removes every object element). -/
def simulatePull (originalArr : Value) (pullQuery : Value) : List Value :=
  match originalArr with
  | Value.vArr _ xs =>
      let l := xs.toList
      match pullQuery with
      | Value.vObj _ qf =>
          l.filter (fun item =>
            if !(truthy item) || !(typeofObject item) || isArrV item then true
            else (qf.toPairs).any (fun kv => !(isEqual (jsIndexProp item kv.1) kv.2)))
      | Value.vDate _ _ =>
          l.filter (fun item =>
            if !(truthy item) || !(typeofObject item) || isArrV item then true
            else false)
      | _ => l.filter (fun item => !(isEqual item pullQuery))
  | _ => []

/-- Source `simulatePullAll` from plugin.ts: a non-array original yields the
empty list; otherwise drop every element structurally equal to any of the
given values (a non-array operand is wrapped). -/
def simulatePullAll (originalArr : Value) (pullAllArr : Value) : List Value :=
  match originalArr with
  | Value.vArr _ xs =>
      let valuesToRemove :=
        match pullAllArr with
        | Value.vArr _ ys => ys.toList
        | v => [v]
      xs.toList.filter (fun item => !(valuesToRemove.any (fun r => isEqual item r)))
  | _ => []

/-- JS `ToNumber` restricted to integer outcomes: numbers, booleans, null,
dates (epoch), and trimmed decimal integer strings convert; `undefined`,
objects and arrays — which convert to `NaN` or need `ToPrimitive` chains —
are rejected. -/
def jsToNumber : Value → Option Int
  | Value.vNum n => some n
  | Value.vBool b => some (if b then 1 else 0)
  | Value.vNull => some 0
  | Value.vStr s => if trimWs s = "" then some 0 else parseIntLit (trimWs s)
  | Value.vDate _ ms => some ms
  | _ => none

/-- Check whether the JS `+` operator would take the string-concatenation
path for this operand (its `ToPrimitive` is a string): strings, dates,
arrays and plain objects. -/
def toPrimitiveIsString : Value → Bool
  | Value.vStr _ => true
  | Value.vDate _ _ => true
  | Value.vArr _ _ => true
  | Value.vObj _ _ => true
  | _ => false

/-- JS `a + b`: string concatenation when either side primitivises to a
string, numeric addition otherwise.  `NaN`-producing numeric cases (e.g.
`undefined + 1`) are outside the value model and collapse to `0`; no theorem
depends on them. -/
def jsAdd (a b : Value) : Value :=
  if toPrimitiveIsString a || toPrimitiveIsString b then
    Value.vStr (jsStringCoerce a ++ jsStringCoerce b)
  else
    match jsToNumber a, jsToNumber b with
    | some x, some y => Value.vNum (x + y)
    | _, _ => Value.vNum 0

/-- JS `a * b`; `NaN` cases collapse to `0` as in `jsAdd`. -/
def jsMul (a b : Value) : Value :=
  match jsToNumber a, jsToNumber b with
  | some x, some y => Value.vNum (x * y)
  | _, _ => Value.vNum 0

/-- JS `Math.min(a, b)`; `NaN` cases collapse to `0` as in `jsAdd`. -/
def jsMathMin (a b : Value) : Value :=
  match jsToNumber a, jsToNumber b with
  | some x, some y => Value.vNum (min x y)
  | _, _ => Value.vNum 0

/-- JS `Math.max(a, b)`; `NaN` cases collapse to `0` as in `jsAdd`. -/
def jsMathMax (a b : Value) : Value :=
  match jsToNumber a, jsToNumber b with
  | some x, some y => Value.vNum (max x y)
  | _, _ => Value.vNum 0

/-- JS `base.concat(arg)`: array concatenation spreads an array argument and
appends a non-array argument; strings concatenate the coerced argument; on
any other base — the `$push` throw site of `extractUpdateFields` when the
original value is neither an array nor nullish — a `TypeError` is raised. -/
def jsConcat (base : Value) (arg : Value) : Except String Value :=
  match base with
  | Value.vArr _ xs =>
      let extra :=
        match arg with
        | Value.vArr _ ys => ys.toList
        | w => [w]
      Except.ok (Value.vArr 0 (ValueList.ofList (xs.toList ++ extra)))
  | Value.vStr s => Except.ok (Value.vStr (s ++ jsStringCoerce arg))
  | _ => Except.error "TypeError: concat is not a function"

/-- JS `base.slice(0, -1)` (drop the last element/character); the `$pop`
throw site on a base with no `slice`. -/
def jsSliceDropLast : Value → Except String Value
  | Value.vArr _ xs => Except.ok (Value.vArr 0 (ValueList.ofList xs.toList.dropLast))
  | Value.vStr s => Except.ok (Value.vStr (String.mk s.toList.dropLast))
  | _ => Except.error "TypeError: slice is not a function"

/-- JS `base.slice(1)` (drop the first element/character). -/
def jsSliceDropFirst : Value → Except String Value
  | Value.vArr _ xs => Except.ok (Value.vArr 0 (ValueList.ofList (xs.toList.drop 1)))
  | Value.vStr s => Except.ok (Value.vStr (String.mk (s.toList.drop 1)))
  | _ => Except.error "TypeError: slice is not a function"

/-- Own enumerable string-keyed entries of a value, as consumed by
`Object.keys` and `Object.assign`: object fields, array elements under their
index keys, string characters under their index keys, nothing for the
rest. -/
def jsOwnEntries : Value → List (String × Value)
  | Value.vObj _ fs => fs.toPairs
  | Value.vArr _ xs => xs.toList.enum.map (fun p => (toString p.1, p.2))
  | Value.vStr s => s.toList.enum.map (fun p => (toString p.1, Value.vStr (String.singleton p.2)))
  | _ => []

/-- Check whether a key names an operator (`key.startsWith('$')`). -/
def startsWithDollar (s : String) : Bool :=
  match s.toList with
  | c :: _ => c = '$'
  | [] => false

/-- The repeated guard `update.$op && typeof update.$op === 'object'` of
`extractUpdateFields`. -/
def opObject (update : Value) (name : String) : Option Value :=
  let v := jsIndexProp update name
  if truthy v && typeofObject v then some v else none

/-- The `$each` detection of `extractUpdateFields`: a truthy non-array
object with an own `$each` property. -/
def isEachOperation (v : Value) : Bool :=
  truthy v && typeofObject v && !(isArrV v) &&
    (match v with
     | Value.vObj _ fs => fs.hasKey "$each"
     | _ => false)

/-- The `$addToSet` block of the `extractUpdateFields` loop from plugin.ts:
when the guarded operator object holds a truthy operand for this field,
simulate add-to-set against the original document's value and write the
result into the working map. -/
def applyAddToSetOp (update originalDoc : Value) (fieldName : String) (arrayKey : Option String)
    (fs : List (String × Value)) : List (String × Value) :=
  match opObject update "$addToSet" with
  | some addToSetOp =>
      let addToSetValue := jsIndexProp addToSetOp fieldName
      if truthy addToSetValue then
        let originalArr := getValueByPath originalDoc fieldName
        let addArr :=
          if isEachOperation addToSetValue then jsIndexProp addToSetValue "$each"
          else Value.vArr 0 (ValueList.cons addToSetValue ValueList.nil)
        assocSet fs fieldName
          (Value.vArr 0 (ValueList.ofList (simulateAddToSet originalArr addArr arrayKey)))
      else fs
  | none => fs

/-- The `$push` block: concatenate onto the original document's value
(nullish-defaulted to `[]`), raising the JS `TypeError` when that value has
no `concat`. -/
def applyPushOp (update originalDoc : Value) (fieldName : String)
    (fs : List (String × Value)) : Except String (List (String × Value)) :=
  match opObject update "$push" with
  | some pushOp =>
      let pushValue := jsIndexProp pushOp fieldName
      if truthy pushValue then do
        let originalArr := jsNullish (getValueByPath originalDoc fieldName) (Value.vArr 0 ValueList.nil)
        let pushArr :=
          if isEachOperation pushValue then jsIndexProp pushValue "$each"
          else Value.vArr 0 (ValueList.cons pushValue ValueList.nil)
        let res ← jsConcat originalArr pushArr
        pure (assocSet fs fieldName res)
      else pure fs
  | none => pure fs

/-- The `$pull` block. -/
def applyPullOp (update originalDoc : Value) (fieldName : String)
    (fs : List (String × Value)) : List (String × Value) :=
  match opObject update "$pull" with
  | some pullOp =>
      let pullQuery := jsIndexProp pullOp fieldName
      if truthy pullQuery then
        let originalArr := getValueByPath originalDoc fieldName
        assocSet fs fieldName (Value.vArr 0 (ValueList.ofList (simulatePull originalArr pullQuery)))
      else fs
  | none => fs

/-- The `$pullAll` block. -/
def applyPullAllOp (update originalDoc : Value) (fieldName : String)
    (fs : List (String × Value)) : List (String × Value) :=
  match opObject update "$pullAll" with
  | some pullAllOp =>
      let pullAllArr := jsIndexProp pullAllOp fieldName
      if truthy pullAllArr then
        let originalArr := getValueByPath originalDoc fieldName
        assocSet fs fieldName (Value.vArr 0 (ValueList.ofList (simulatePullAll originalArr pullAllArr)))
      else fs
  | none => fs

/-- The `$pop` block: drop the last element on operand `1`, the first on
`-1`, otherwise write the original value back unchanged; slicing a base
with no `slice` raises the JS `TypeError`. -/
def applyPopOp (update originalDoc : Value) (fieldName : String)
    (fs : List (String × Value)) : Except String (List (String × Value)) :=
  match opObject update "$pop" with
  | some popOp =>
      match jsIndexProp popOp fieldName with
      | Value.vUndef => pure fs
      | popVal => do
          let originalArr := jsNullish (getValueByPath originalDoc fieldName) (Value.vArr 0 ValueList.nil)
          match popVal with
          | Value.vNum n =>
              if n = 1 then do
                let r ← jsSliceDropLast originalArr
                pure (assocSet fs fieldName r)
              else if n = -1 then do
                let r ← jsSliceDropFirst originalArr
                pure (assocSet fs fieldName r)
              else pure (assocSet fs fieldName originalArr)
          | _ => pure (assocSet fs fieldName originalArr)
  | none => pure fs

/-- The `$inc` block: numeric add over the truthiness-defaulted original. -/
def applyIncOp (update originalDoc : Value) (fieldName : String)
    (fs : List (String × Value)) : List (String × Value) :=
  match opObject update "$inc" with
  | some incOp =>
      match jsIndexProp incOp fieldName with
      | Value.vUndef => fs
      | incValue =>
          let originalValue := jsOr (getValueByPath originalDoc fieldName) (Value.vNum 0)
          assocSet fs fieldName (jsAdd originalValue incValue)
  | none => fs

/-- The `$mul` block. -/
def applyMulOp (update originalDoc : Value) (fieldName : String)
    (fs : List (String × Value)) : List (String × Value) :=
  match opObject update "$mul" with
  | some mulOp =>
      match jsIndexProp mulOp fieldName with
      | Value.vUndef => fs
      | mulValue =>
          let originalValue := jsOr (getValueByPath originalDoc fieldName) (Value.vNum 0)
          assocSet fs fieldName (jsMul originalValue mulValue)
  | none => fs

/-- The `$min` block: keep the operand when the original is undefined,
otherwise the smaller of the two. -/
def applyMinOp (update originalDoc : Value) (fieldName : String)
    (fs : List (String × Value)) : List (String × Value) :=
  match opObject update "$min" with
  | some minOp =>
      match jsIndexProp minOp fieldName with
      | Value.vUndef => fs
      | minValue =>
          match getValueByPath originalDoc fieldName with
          | Value.vUndef => assocSet fs fieldName minValue
          | originalValue => assocSet fs fieldName (jsMathMin originalValue minValue)
  | none => fs

/-- The `$max` block. -/
def applyMaxOp (update originalDoc : Value) (fieldName : String)
    (fs : List (String × Value)) : List (String × Value) :=
  match opObject update "$max" with
  | some maxOp =>
      match jsIndexProp maxOp fieldName with
      | Value.vUndef => fs
      | maxValue =>
          match getValueByPath originalDoc fieldName with
          | Value.vUndef => assocSet fs fieldName maxValue
          | originalValue => assocSet fs fieldName (jsMathMax originalValue maxValue)
  | none => fs

/-- Per-tracked-field section of the `extractUpdateFields` loop from
plugin.ts: apply `$addToSet`, `$push`, `$pull`, `$pullAll`, `$pop`, `$inc`,
`$mul`, `$min`, `$max` in that order for this field; the source's nine
comment-delimited operator blocks are the nine named stage functions above.
Every operator reads its base value from `originalDoc` via `getValueByPath`
— not from the working `fields` map — and writes its result into the
working map.  The `Except` layer carries the `TypeError`s JS would raise
when `$push` or `$pop` meet a non-array, non-nullish original value. -/
def applyFieldOps (update originalDoc : Value) (field : TrackedField)
    (fs0 : List (String × Value)) : Except String (List (String × Value)) := do
  let fieldName := field.value
  let arrayKey := field.arrayKey
  let fs1 := applyAddToSetOp update originalDoc fieldName arrayKey fs0
  let fs2 ← applyPushOp update originalDoc fieldName fs1
  let fs3 := applyPullOp update originalDoc fieldName fs2
  let fs4 := applyPullAllOp update originalDoc fieldName fs3
  let fs5 ← applyPopOp update originalDoc fieldName fs4
  let fs6 := applyIncOp update originalDoc fieldName fs5
  let fs7 := applyMulOp update originalDoc fieldName fs6
  let fs8 := applyMinOp update originalDoc fieldName fs7
  let fs9 := applyMaxOp update originalDoc fieldName fs8
  pure fs9

/-- The per-field loop of `extractUpdateFields`, in configuration order over
the shared working map. -/
def extractUpdateFieldsFold (update originalDoc : Value) :
    TrackedFieldList → List (String × Value) → Except String (List (String × Value))
  | TrackedFieldList.nil, fs => Except.ok fs
  | TrackedFieldList.cons field rest, fs => do
      let fs1 ← applyFieldOps update originalDoc field fs
      extractUpdateFieldsFold update originalDoc rest fs1

/-- The direct-assignment loop opening `extractUpdateFields`: every own key
of the update that does not start with `$` is copied into the working
map. -/
def directFields (update : Value) : List (String × Value) :=
  (jsOwnEntries update).foldl
    (fun fs kv => if startsWithDollar kv.1 then fs else assocSet fs kv.1 kv.2) []

/-- The `$set` and `$setOnInsert` blocks of `extractUpdateFields` (they are
identical up to the operator name): `Object.assign(fields, update[name])`
under the operator guard. -/
def applySetLike (update : Value) (name : String)
    (fs : List (String × Value)) : List (String × Value) :=
  match opObject update name with
  | some o => (jsOwnEntries o).foldl (fun fs kv => assocSet fs kv.1 kv.2) fs
  | none => fs

/-- The `$unset` block of `extractUpdateFields`: every key of the `$unset`
object is written into the working map as `undefined`. -/
def applyUnsetOp (update : Value) (fs : List (String × Value)) : List (String × Value) :=
  match opObject update "$unset" with
  | some unsetOp => (jsOwnEntries unsetOp).foldl (fun fs kv => assocSet fs kv.1 Value.vUndef) fs
  | none => fs

/-- Source `extractUpdateFields` from plugin.ts, the patch simulator: a falsy
update yields the empty map; then, in order, non-`$` direct assignments,
`$set`, `$setOnInsert` and `$unset` copy the keys they name — tracked or
not — into the working map (`$unset` writing `undefined`), and finally the
per-tracked-field operators run via `applyFieldOps`. -/
def extractUpdateFields (update : Value) (originalDoc : Value)
    (trackedFields : TrackedFieldList) : Except String (List (String × Value)) :=
  if !(truthy update) then Except.ok []
  else
    extractUpdateFieldsFold update originalDoc trackedFields
      (applyUnsetOp update
        (applySetLike update "$setOnInsert"
          (applySetLike update "$set" (directFields update))))

/-- JS property read as an effectful operation: reading a property of null
or undefined raises a `TypeError`; every other base reads totally.  Used by
the monadic path walker that witnesses the no-throw discipline of the
pipeline (claim C9). -/
def jsAccessE (v : Value) (k : String) : Except String Value :=
  match v with
  | Value.vNull => Except.error "TypeError: cannot read properties of null"
  | Value.vUndef => Except.error "TypeError: cannot read properties of undefined"
  | _ => Except.ok (jsIndexProp v k)

/-- Monadic transcription of the walk loop of `getValueByPath`, with every
property read going through the throwing `jsAccessE`. -/
def walkSegmentsE : Value → List String → Except String Value
  | cur, [] => Except.ok cur
  | Value.vNull, _ :: _ => Except.ok Value.vUndef
  | Value.vArr _ xs, seg :: rest =>
      match parseIndex seg with
      | some i => walkSegmentsE (listGetInt xs.toList i) rest
      | none => Except.ok Value.vUndef
  | Value.vObj oid fs, seg :: rest => do
      let nxt ← jsAccessE (Value.vObj oid fs) seg
      walkSegmentsE nxt rest
  | Value.vDate oid ms, seg :: rest => do
      let nxt ← jsAccessE (Value.vDate oid ms) seg
      walkSegmentsE nxt rest
  | _, _ :: _ => Except.ok Value.vUndef

/-- Monadic transcription of `getValueByPath` over the throwing property
read. -/
def getValueByPathE (obj : Value) (path : String) : Except String Value :=
  if !(truthy obj) then Except.ok Value.vUndef
  else do
    let current ← jsAccessE obj path
    if truthy current then pure current
    else walkSegmentsE obj (splitOnDot path)

/-- Literal builder: an object value from a list of pairs. -/
def mkObj (oid : Nat) (fs : List (String × Value)) : Value :=
  Value.vObj oid (fs.foldr (fun p acc => ObjFields.cons p.1 p.2 acc) ObjFields.nil)

/-- Literal builder: an array value from a list of elements. -/
def mkArr (oid : Nat) (xs : List Value) : Value :=
  Value.vArr oid (ValueList.ofList xs)

/-- Literal builder: a tracked-field list from a Lean list. -/
def mkTFL (l : List TrackedField) : TrackedFieldList :=
  l.foldr TrackedFieldList.cons TrackedFieldList.nil

/-- A generic (non-array) tracked field with no extras. -/
def genField (v : String) : TrackedField :=
  TrackedField.mk v none none none none none none

/-- Projection of the `add` records of a change list to their
`(fieldName, fromValue, toValue)` triples. -/
def addsProj (logs : List FieldLog) : List (String × StrVal × StrVal) :=
  logs.filterMap (fun r =>
    if r.change_type = ChangeType.add then some (r.field_name, r.from_value, r.to_value) else none)

/-- Projection of the `remove` records of a change list to their
direction-reversed `(fieldName, toValue, fromValue)` triples. -/
def removesSwProj (logs : List FieldLog) : List (String × StrVal × StrVal) :=
  logs.filterMap (fun r =>
    if r.change_type = ChangeType.remove then some (r.field_name, r.to_value, r.from_value) else none)

/-- Check whether an update value is undefined. -/
def isUndefV : Value → Bool
  | Value.vUndef => true
  | _ => false

/-- Check whether the guarded operator object of `update` has an own entry
named `k`. -/
def opHasKey (update : Value) (name k : String) : Bool :=
  match opObject update name with
  | some o => (jsOwnEntries o).any (fun kv => kv.1 == k)
  | none => false

/-- Check whether the guarded operator object of `update` holds a truthy
operand at `k` (the firing condition of `$addToSet`/`$push`/`$pull`/
`$pullAll`). -/
def opTruthyAt (update : Value) (name k : String) : Bool :=
  match opObject update name with
  | some o => truthy (jsIndexProp o k)
  | none => false

/-- Check whether the guarded operator object of `update` holds a defined
operand at `k` (the firing condition of `$pop`/`$inc`/`$mul`/`$min`/
`$max`). -/
def opDefinedAt (update : Value) (name k : String) : Bool :=
  match opObject update name with
  | some o => !(isUndefV (jsIndexProp o k))
  | none => false

/-- The patch names the key `k`: `k` is a non-operator direct key, a key of
the `$set`/`$setOnInsert`/`$unset` objects, or an operand key that would
fire one of the per-field operators.  Exactly the conditions under which
`extractUpdateFields` ever writes at `k`. -/
def patchNamesKey (update : Value) (k : String) : Bool :=
  (jsOwnEntries update).any (fun kv => !(startsWithDollar kv.1) && kv.1 == k) ||
  opHasKey update "$set" k || opHasKey update "$setOnInsert" k || opHasKey update "$unset" k ||
  opTruthyAt update "$addToSet" k || opTruthyAt update "$push" k ||
  opTruthyAt update "$pull" k || opTruthyAt update "$pullAll" k ||
  opDefinedAt update "$pop" k || opDefinedAt update "$inc" k || opDefinedAt update "$mul" k ||
  opDefinedAt update "$min" k || opDefinedAt update "$max" k

/-! Basic lemmas about the JS value primitives. -/

theorem strictEq_refl (v : Value) : strictEq v v = true := by
  cases v <;> simp [strictEq]

theorem isEqual_refl (v : Value) : isEqual v v = true := by
  rw [isEqual.eq_def, strictEq_refl]
  rfl

theorem areValuesEqual_refl : ∀ (v : Value), areValuesEqual v v = true
  | Value.vUndef => rfl
  | Value.vNull => rfl
  | Value.vBool b => strictEq_refl (Value.vBool b)
  | Value.vNum n => strictEq_refl (Value.vNum n)
  | Value.vStr s => strictEq_refl (Value.vStr s)
  | Value.vDate oid ms => by
      show (ms == ms) = true
      simp
  | Value.vArr oid xs => isEqual_refl (Value.vArr oid xs)
  | Value.vObj oid fs => isEqual_refl (Value.vObj oid fs)

theorem strictEq_symm (a b : Value) : strictEq a b = strictEq b a := by
  cases a <;> cases b <;> simp [strictEq] <;> exact eq_comm

theorem strictEq_trans {a b c : Value} (h1 : strictEq a b = true) (h2 : strictEq b c = true) :
    strictEq a c = true := by
  cases a <;> cases b <;> simp_all [strictEq] <;> cases c <;> simp_all [strictEq]

/-! Claim C5: generic absent-to-present transitions. -/

/-- Claim C5 (counterexample): with the tracked generic field `f` absent as
the empty string before and present after, the single emitted record has
kind `add` but its `from_value` is the empty string — not null as the claim
states. -/
theorem c5_counterexample :
    getTrackedChanges (mkObj 1 [("f", Value.vStr "")]) (mkObj 2 [("f", Value.vStr "x")])
      (mkTFL [genField "f"]) =
      [{ field_name := "f", from_value := StrVal.str "", to_value := StrVal.str "x"
         change_type := ChangeType.add, context := none }] ∧
    StrVal.str "" ≠ StrVal.nullv :=
  ⟨rfl, by decide⟩

/-- Claim C5 (amended): when exactly one tracked generic field is absent in
`before` (null, undefined or empty string) and present in `after`, diff
returns exactly one record of kind `add`; its `fromValue` is the
stringification of the absent before-value under the field's mask — null
when the before-value was null, undefined when the field was missing, the
(possibly masked) empty-string rendering when it was the empty string — and
its `toValue` the stringified after-value. -/
theorem c5_generic_add_record (before after : Value) (field : TrackedField)
    (hgen : field.arrayType = none)
    (hval : field.value ≠ "")
    (habs : existsVal (getValueByPath before field.value) = false)
    (hpres : existsVal (getValueByPath after field.value) = true) :
    getTrackedChanges before after (TrackedFieldList.cons field TrackedFieldList.nil) =
      [{ field_name := field.value
         from_value := valueToString (getValueByPath before field.value) field.mask
         to_value := valueToString (getValueByPath after field.value) field.mask
         change_type := ChangeType.add
         context := extractLogContext field.contextFields before after Value.vNull Value.vNull }] := by
  rw [getTrackedChanges, getTrackedChanges]
  rw [if_neg hval, hgen]
  simp only [processGenericFieldChanges, habs, hpres]
  simp

/-- Claim C5 (witness): the amended record shape at a concrete input where
the before-value is null, giving `fromValue = null`. -/
theorem c5_witness :
    getTrackedChanges (mkObj 1 [("f", Value.vNull)]) (mkObj 2 [("f", Value.vStr "x")])
      (TrackedFieldList.cons (genField "f") TrackedFieldList.nil) =
      [{ field_name := "f", from_value := StrVal.nullv, to_value := StrVal.str "x"
         change_type := ChangeType.add, context := none }] :=
  c5_generic_add_record (mkObj 1 [("f", Value.vNull)]) (mkObj 2 [("f", Value.vStr "x")])
    (genField "f") rfl (by decide) rfl rfl

/-! Claim C7: context extraction. -/

/-- Claim C7 (counterexample): the path `a` is present in `afterDoc` with
value `0`, yet the flat-list context bucket holds `5` from `beforeDoc`: the
fallback is on a falsy after-value, not only on absence. -/
theorem c7_counterexample :
    getValueByPath (mkObj 2 [("a", Value.vNum 0)]) "a" = Value.vNum 0 ∧
    extractLogContext (some (ContextFields.flat ["a"]))
        (mkObj 1 [("a", Value.vNum 5)]) (mkObj 2 [("a", Value.vNum 0)]) Value.vNull Value.vNull =
      some (ObjFields.cons "doc" (Value.vObj 0 (ObjFields.cons "a" (Value.vNum 5) ObjFields.nil)) ObjFields.nil) ∧
    Value.vNum 5 ≠ Value.vNum 0 :=
  ⟨rfl, rfl, by intro h; exact absurd (Value.vNum.inj h) (by decide)⟩

/-- Claim C7 (amended): with no context rule configured the extractor
returns `undefined` (not an empty object); with a flat path list it returns
a single `doc` bucket in which the path holds the value resolved from
`afterDoc` whenever that value is truthy, written back at the same dotted
path with intermediate structure reconstructed; when the after-value is
falsy (undefined, null, `0`, `''`, `false`) — not merely absent — the value
falls back to `beforeDoc`'s resolution. -/
theorem c7_extract_context :
    (∀ (b a bi ai : Value), extractLogContext none b a bi ai = none) ∧
    (∀ (p : String) (b a bi ai : Value), truthy (getValueByPath a p) = true →
      extractLogContext (some (ContextFields.flat [p])) b a bi ai =
        some (ObjFields.cons "doc"
          (Value.vObj 0 (setByPath ObjFields.nil p (getValueByPath a p))) ObjFields.nil)) ∧
    (∀ (p : String) (b a bi ai : Value), truthy (getValueByPath a p) = false →
      extractLogContext (some (ContextFields.flat [p])) b a bi ai =
        some (ObjFields.cons "doc"
          (Value.vObj 0 (setByPath ObjFields.nil p (getValueByPath b p))) ObjFields.nil)) := by
  refine ⟨fun b a bi ai => rfl, ?_, ?_⟩
  · intro p b a bi ai h
    simp [extractLogContext, buildDocBucket, jsOr, h]
  · intro p b a bi ai h
    simp [extractLogContext, buildDocBucket, jsOr, h]

/-- Claim C7 (witness): the specification's own example — context rule
`['user.name']` against `\x7buser:\x7bname:'Alice'\x7d\x7d` yields
`\x7bdoc:\x7buser:\x7bname:'Alice'\x7d\x7d\x7d`. -/
theorem c7_witness :
    extractLogContext (some (ContextFields.flat ["user.name"]))
        Value.vNull (mkObj 1 [("user", mkObj 2 [("name", Value.vStr "Alice")])])
        Value.vNull Value.vNull =
      some (ObjFields.cons "doc"
        (Value.vObj 0 (ObjFields.cons "user"
          (Value.vObj 0 (ObjFields.cons "name" (Value.vStr "Alice") ObjFields.nil)) ObjFields.nil))
        ObjFields.nil) := by
  have h := c7_extract_context.2.1 "user.name" Value.vNull
    (mkObj 1 [("user", mkObj 2 [("name", Value.vStr "Alice")])]) Value.vNull Value.vNull rfl
  exact h

/-! Claim C8: the path accessor versus the pure segment walk. -/

theorem splitDotAux_ne_nil (cs : List Char) (acc : List Char) : splitDotAux cs acc ≠ [] := by
  induction cs generalizing acc with
  | nil => simp [splitDotAux]
  | cons c rest ih =>
      rw [splitDotAux]
      by_cases h : c = '.'
      · simp [h]
      · simp [h]
        exact ih _

theorem walkSegments_falsy (v : Value) (hf : truthy v = false) (s : String) (rest : List String) :
    walkSegments v (s :: rest) = Value.vUndef := by
  cases v <;> simp_all [truthy, walkSegments]

/-- Claim C8 (counterexample): on a record holding both a literal flat key
`a.b` and a nested `a.b` structure, the accessor returns the flat key's
value while the segment-wise walk returns the nested one — the result does
not depend only on the walk. -/
theorem c8_counterexample :
    getValueByPath (mkObj 1 [("a.b", Value.vNum 1), ("a", mkObj 2 [("b", Value.vNum 2)])]) "a.b" =
      Value.vNum 1 ∧
    walkPathSpec (mkObj 1 [("a.b", Value.vNum 1), ("a", mkObj 2 [("b", Value.vNum 2)])]) "a.b" =
      Value.vNum 2 ∧
    Value.vNum 1 ≠ Value.vNum 2 :=
  ⟨rfl, rfl, by intro h; exact absurd (Value.vNum.inj h) (by decide)⟩

/-- Claim C8 (amended): `getValueByPath` coincides with the segment-wise
walk described by the claim — splitting on `.`, walking object-keyed and
numeric array-index segments, returning `undefined` the instant an
intermediate is missing, null or not indexable — except that the whole path
is first tried as a literal flat key of the root and that value returned
when truthy. -/
theorem c8_get_is_walk_or_flat_key (obj : Value) (path : String) :
    getValueByPath obj path =
      if truthy obj && truthy (jsIndexProp obj path) then jsIndexProp obj path
      else walkPathSpec obj path := by
  rw [getValueByPath, walkPathSpec]
  by_cases ho : truthy obj
  · simp only [ho, Bool.true_and, Bool.not_true]
    by_cases hc : truthy (jsIndexProp obj path)
    · simp [hc]
    · simp [hc]
  · simp only [ho, Bool.false_and, Bool.not_false, if_true, if_false]
    obtain ⟨s, rest, hsr⟩ : ∃ s rest, splitOnDot path = s :: rest := by
      rcases h : splitOnDot path with _ | ⟨s, rest⟩
      · exact absurd h (splitDotAux_ne_nil _ _)
      · exact ⟨s, rest, rfl⟩
    rw [hsr, walkSegments_falsy obj (by simpa using ho)]
    simp

/-! Claim C2: masking. -/

/-- Claim C2 (counterexample): with a literal mask on the tracked field, a
record is emitted for an absent-to-present transition whose `from_value` is
undefined — the pass-through of the missing before-value — not the mask
literal, so not every change record of a masked field carries the literal on
both sides. -/
theorem c2_counterexample :
    getTrackedChanges (mkObj 1 []) (mkObj 2 [("name", Value.vStr "Jane")])
      (mkTFL [TrackedField.mk "name" none none none (some (Mask.lit "***")) none none]) =
      [{ field_name := "name", from_value := StrVal.undef, to_value := StrVal.str "***"
         change_type := ChangeType.add, context := none }] ∧
    StrVal.undef ≠ StrVal.str "***" :=
  ⟨rfl, by decide⟩

theorem valueToString_lit (v : Value) (m : String) (h1 : v ≠ Value.vNull)
    (h2 : v ≠ Value.vUndef) : valueToString v (some (Mask.lit m)) = StrVal.str m := by
  cases v <;> simp_all [valueToString]

/-- Claim C2 (amended): stringification with a literal mask substitutes the
literal for every value other than null and undefined, which pass through
unchanged; with a function mask the function's result on the value is used.
In particular an `edit` record of a field with a literal mask — where both
sides exist — renders both `fromValue` and `toValue` as the literal,
whatever the underlying values. -/
theorem c2_mask_substitution :
    (∀ (v : Value) (m : String), v ≠ Value.vNull → v ≠ Value.vUndef →
      valueToString v (some (Mask.lit m)) = StrVal.str m) ∧
    (∀ (g : Value → StrVal) (v : Value), v ≠ Value.vNull → v ≠ Value.vUndef →
      valueToString v (some (Mask.fn g)) = g v) ∧
    (∀ (field : TrackedField) (m : String) (before after : Value),
      field.mask = some (Mask.lit m) →
      field.arrayType = none →
      field.value ≠ "" →
      existsVal (getValueByPath before field.value) = true →
      existsVal (getValueByPath after field.value) = true →
      areValuesEqual (getValueByPath before field.value) (getValueByPath after field.value) = false →
      getTrackedChanges before after (TrackedFieldList.cons field TrackedFieldList.nil) =
        [{ field_name := field.value, from_value := StrVal.str m, to_value := StrVal.str m
           change_type := ChangeType.edit
           context := extractLogContext field.contextFields before after Value.vNull Value.vNull }]) := by
  refine ⟨valueToString_lit, ?_, ?_⟩
  · intro g v h1 h2
    cases v <;> simp_all [valueToString]
  · intro field m before after hmask hgen hval hbe hae hne
    rw [getTrackedChanges, getTrackedChanges]
    rw [if_neg hval, hgen]
    simp only [processGenericFieldChanges, hbe, hae, hne]
    have hb : getValueByPath before field.value ≠ Value.vNull := by
      intro h; rw [h] at hbe; exact absurd hbe (by decide)
    have hb2 : getValueByPath before field.value ≠ Value.vUndef := by
      intro h; rw [h] at hbe; exact absurd hbe (by decide)
    have ha : getValueByPath after field.value ≠ Value.vNull := by
      intro h; rw [h] at hae; exact absurd hae (by decide)
    have ha2 : getValueByPath after field.value ≠ Value.vUndef := by
      intro h; rw [h] at hae; exact absurd hae (by decide)
    rw [hmask]
    rw [valueToString_lit _ m hb hb2, valueToString_lit _ m ha ha2]
    simp

/-- Claim C2 (witness): an edit of `name` from `John` to `Jane` under the
literal mask `***` renders both sides as `***`. -/
theorem c2_witness :
    getTrackedChanges (mkObj 1 [("name", Value.vStr "John")]) (mkObj 2 [("name", Value.vStr "Jane")])
      (TrackedFieldList.cons (TrackedField.mk "name" none none none (some (Mask.lit "***")) none none)
        TrackedFieldList.nil) =
      [{ field_name := "name", from_value := StrVal.str "***", to_value := StrVal.str "***"
         change_type := ChangeType.edit, context := none }] :=
  c2_mask_substitution.2.2
    (TrackedField.mk "name" none none none (some (Mask.lit "***")) none none) "***"
    (mkObj 1 [("name", Value.vStr "John")]) (mkObj 2 [("name", Value.vStr "Jane")])
    rfl rfl (by decide) rfl rfl rfl

theorem truthy_vObj (oid : Nat) (fs : ObjFields) : truthy (Value.vObj oid fs) = true := rfl

theorem truthy_vArr (oid : Nat) (xs : ValueList) : truthy (Value.vArr oid xs) = true := rfl

theorem truthy_vUndef : truthy Value.vUndef = false := rfl

theorem truthy_vNull : truthy Value.vNull = false := rfl

theorem typeofObject_vObj (oid : Nat) (fs : ObjFields) : typeofObject (Value.vObj oid fs) = true := rfl

theorem typeofObject_vUndef : typeofObject Value.vUndef = false := rfl

/-! Claim C1: operator precedence and the working field map. -/

/-- Claim C1 (counterexample): simulating
`\x7b$set:\x7bf:[a]\x7d, $push:\x7bf:b\x7d\x7d` on a document without `f`
yields `f = [b]` — the `$push` read the original document, where `f` is
empty, not the `[a]` the earlier `$set` wrote to the working map — and
`[b]` is not the `[a,b]` the claim predicts. -/
theorem c1_counterexample :
    extractUpdateFields
        (mkObj 1 [("$set", mkObj 2 [("f", mkArr 3 [Value.vStr "a"])]),
                  ("$push", mkObj 4 [("f", Value.vStr "b")])])
        (mkObj 5 []) (mkTFL [genField "f"]) =
      Except.ok [("f", mkArr 0 [Value.vStr "b"])] ∧
    (ValueList.ofList [Value.vStr "b"]).toList ≠ [Value.vStr "a", Value.vStr "b"] :=
  ⟨rfl, by intro h; exact absurd (congrArg List.length h) (by decide)⟩

/-- Claim C1 (amended): the simulator applies the recognized operators in
the fixed precedence order as successive writes to the working field map —
later writes to the same field overwrite earlier ones — but each per-field
operator reads its base value from the original document, not from the
working map.  Concretely, for any `$set` operand `[a]` and any truthy
non-`$each` push operand `b`, simulating
`\x7b$set:\x7bf:[a]\x7d, $push:\x7bf:b\x7d\x7d` against a document whose `f`
is an array `xs` yields `f = xs ++ [b]`, independent of `a`. -/
theorem c1_operators_read_original_doc (a b doc : Value) (oid : Nat) (xs : ValueList)
    (harr : getValueByPath doc "f" = Value.vArr oid xs)
    (htr : truthy b = true) (heach : isEachOperation b = false) :
    extractUpdateFields
        (mkObj 1 [("$set", mkObj 2 [("f", mkArr 3 [a])]),
                  ("$push", mkObj 4 [("f", b)])])
        doc (mkTFL [genField "f"]) =
      Except.ok [("f", Value.vArr 0 (ValueList.ofList (xs.toList ++ [b])))] := by
  rw [extractUpdateFields]
  simp only [mkObj, mkArr, mkTFL, genField, directFields, applySetLike, applyUnsetOp]
  simp only [extractUpdateFieldsFold, applyFieldOps, applyAddToSetOp, applyPushOp,
    applyPullOp, applyPullAllOp, applyPopOp, applyIncOp, applyMulOp, applyMinOp,
    applyMaxOp, TrackedField.value, TrackedField.arrayKey]
  simp [opObject, jsOwnEntries, jsIndexProp, ObjFields.lookup, ObjFields.toPairs,
    truthy_vObj, truthy_vArr, truthy_vUndef, typeofObject_vObj, typeofObject_vUndef,
    startsWithDollar, assocSet, htr, heach, harr, jsNullish, jsConcat, Except.bind,
    ValueList.toList, ValueList.ofList]
  rfl

/-- Claim C1 (witness): the amended behaviour at a concrete document whose
`f` is `["c"]`: the simulated `f` is `["c","b"]`, not `["a","b"]`. -/
theorem c1_witness :
    extractUpdateFields
        (mkObj 1 [("$set", mkObj 2 [("f", mkArr 3 [Value.vStr "a"])]),
                  ("$push", mkObj 4 [("f", Value.vStr "b")])])
        (mkObj 5 [("f", mkArr 6 [Value.vStr "c"])]) (mkTFL [genField "f"]) =
      Except.ok [("f", Value.vArr 0 (ValueList.ofList ([Value.vStr "c"] ++ [Value.vStr "b"])))] :=
  c1_operators_read_original_doc (Value.vStr "a") (Value.vStr "b")
    (mkObj 5 [("f", mkArr 6 [Value.vStr "c"])]) 6 (ValueList.ofList [Value.vStr "c"])
    rfl rfl rfl

/-! Claim C6: which keys the simulator writes. -/

theorem assocLookup_assocSet (fs : List (String × Value)) (k t : String) (v : Value) :
    assocLookup (assocSet fs k v) t = if k = t then some v else assocLookup fs t := by
  induction fs with
  | nil => by_cases h : k = t <;> simp [assocSet, assocLookup, h]
  | cons p tl ih =>
      obtain ⟨k0, v0⟩ := p
      by_cases h0 : k0 = k
      · subst h0
        by_cases h1 : k0 = t <;> simp_all [assocSet, assocLookup]
      · have h0' : ¬(k = k0) := fun hh => h0 hh.symm
        by_cases h1 : k0 = t
        · subst h1
          simp_all [assocSet, assocLookup]
        · simp_all [assocSet, assocLookup]

theorem assocSet_keys : ∀ (fs : List (String × Value)) (kk t : String) (v : Value),
    t ∈ (assocSet fs kk v).map Prod.fst → t ∈ fs.map Prod.fst ∨ t = kk
  | [], kk, t, v, h => by
      simp [assocSet] at h
      exact Or.inr h
  | (k0, v0) :: tl, kk, t, v, h => by
      by_cases h0 : k0 = kk
      · rw [assocSet, if_pos h0] at h
        simp only [List.map_cons, List.mem_cons] at h
        rcases h with h | h
        · refine Or.inl ?_
          simp only [List.map_cons, List.mem_cons]
          exact Or.inl h
        · refine Or.inl ?_
          simp only [List.map_cons, List.mem_cons]
          exact Or.inr h
      · rw [assocSet, if_neg h0] at h
        simp only [List.map_cons, List.mem_cons] at h
        rcases h with h | h
        · refine Or.inl ?_
          simp only [List.map_cons, List.mem_cons]
          exact Or.inl h
        · rcases assocSet_keys tl kk t v h with h2 | h2
          · refine Or.inl ?_
            simp only [List.map_cons, List.mem_cons]
            exact Or.inr h2
          · exact Or.inr h2

theorem assocLookup_eq_none (fs : List (String × Value)) (t : String)
    (h : t ∉ fs.map Prod.fst) : assocLookup fs t = none := by
  induction fs with
  | nil => rfl
  | cons p tl ih =>
      obtain ⟨k0, v0⟩ := p
      rw [assocLookup]
      have h1 : k0 ≠ t := by
        intro hh
        exact h (by simp [hh])
      rw [if_neg h1]
      exact ih (fun hm => h (by simp only [List.map_cons, List.mem_cons]; exact Or.inr hm))

theorem keys_of_shape {fs m : List (String × Value)} {fn : String} {cond : Bool}
    (hs : m = fs ∨ ((∃ v, m = assocSet fs fn v) ∧ cond = true)) (k : String)
    (h : k ∈ m.map Prod.fst) : k ∈ fs.map Prod.fst ∨ (k = fn ∧ cond = true) := by
  rcases hs with hs | ⟨⟨v, hv⟩, hc⟩
  · exact Or.inl (hs ▸ h)
  · rcases assocSet_keys fs fn k v (hv ▸ h) with h2 | h2
    · exact Or.inl h2
    · exact Or.inr ⟨h2, hc⟩

theorem applyAddToSetOp_shape (update doc : Value) (fn : String) (ak : Option String)
    (fs : List (String × Value)) :
    applyAddToSetOp update doc fn ak fs = fs ∨
      ((∃ v, applyAddToSetOp update doc fn ak fs = assocSet fs fn v) ∧
        opTruthyAt update "$addToSet" fn = true) := by
  unfold applyAddToSetOp opTruthyAt
  rcases hop : opObject update "$addToSet" with _ | op
  · exact Or.inl rfl
  · cases hc : truthy (jsIndexProp op fn)
    · simp [hc]
    · refine Or.inr ⟨⟨Value.vArr 0 (ValueList.ofList (simulateAddToSet (getValueByPath doc fn)
        (if isEachOperation (jsIndexProp op fn) = true then jsIndexProp (jsIndexProp op fn) "$each"
         else Value.vArr 0 (ValueList.cons (jsIndexProp op fn) ValueList.nil)) ak)), ?_⟩, hc⟩
      simp [hc]

theorem applyPullOp_shape (update doc : Value) (fn : String) (fs : List (String × Value)) :
    applyPullOp update doc fn fs = fs ∨
      ((∃ v, applyPullOp update doc fn fs = assocSet fs fn v) ∧
        opTruthyAt update "$pull" fn = true) := by
  unfold applyPullOp opTruthyAt
  rcases hop : opObject update "$pull" with _ | op
  · exact Or.inl rfl
  · cases hc : truthy (jsIndexProp op fn)
    · simp [hc]
    · refine Or.inr ⟨⟨Value.vArr 0 (ValueList.ofList
        (simulatePull (getValueByPath doc fn) (jsIndexProp op fn))), ?_⟩, hc⟩
      simp [hc]

theorem applyPullAllOp_shape (update doc : Value) (fn : String) (fs : List (String × Value)) :
    applyPullAllOp update doc fn fs = fs ∨
      ((∃ v, applyPullAllOp update doc fn fs = assocSet fs fn v) ∧
        opTruthyAt update "$pullAll" fn = true) := by
  unfold applyPullAllOp opTruthyAt
  rcases hop : opObject update "$pullAll" with _ | op
  · exact Or.inl rfl
  · cases hc : truthy (jsIndexProp op fn)
    · simp [hc]
    · refine Or.inr ⟨⟨Value.vArr 0 (ValueList.ofList
        (simulatePullAll (getValueByPath doc fn) (jsIndexProp op fn))), ?_⟩, hc⟩
      simp [hc]

theorem applyIncOp_shape (update doc : Value) (fn : String) (fs : List (String × Value)) :
    applyIncOp update doc fn fs = fs ∨
      ((∃ v, applyIncOp update doc fn fs = assocSet fs fn v) ∧
        opDefinedAt update "$inc" fn = true) := by
  unfold applyIncOp opDefinedAt
  rcases hop : opObject update "$inc" with _ | op
  · exact Or.inl rfl
  · cases hv : jsIndexProp op fn <;> simp [hv, isUndefV] <;> exact ⟨_, rfl⟩

theorem applyMulOp_shape (update doc : Value) (fn : String) (fs : List (String × Value)) :
    applyMulOp update doc fn fs = fs ∨
      ((∃ v, applyMulOp update doc fn fs = assocSet fs fn v) ∧
        opDefinedAt update "$mul" fn = true) := by
  unfold applyMulOp opDefinedAt
  rcases hop : opObject update "$mul" with _ | op
  · exact Or.inl rfl
  · cases hv : jsIndexProp op fn <;> simp [hv, isUndefV] <;> exact ⟨_, rfl⟩

theorem applyMinOp_shape (update doc : Value) (fn : String) (fs : List (String × Value)) :
    applyMinOp update doc fn fs = fs ∨
      ((∃ v, applyMinOp update doc fn fs = assocSet fs fn v) ∧
        opDefinedAt update "$min" fn = true) := by
  unfold applyMinOp opDefinedAt
  rcases hop : opObject update "$min" with _ | op
  · exact Or.inl rfl
  · cases hv : jsIndexProp op fn <;>
      cases hg : getValueByPath doc fn <;> simp [hv, hg, isUndefV] <;> exact ⟨_, rfl⟩

theorem applyMaxOp_shape (update doc : Value) (fn : String) (fs : List (String × Value)) :
    applyMaxOp update doc fn fs = fs ∨
      ((∃ v, applyMaxOp update doc fn fs = assocSet fs fn v) ∧
        opDefinedAt update "$max" fn = true) := by
  unfold applyMaxOp opDefinedAt
  rcases hop : opObject update "$max" with _ | op
  · exact Or.inl rfl
  · cases hv : jsIndexProp op fn <;>
      cases hg : getValueByPath doc fn <;> simp [hv, hg, isUndefV] <;> exact ⟨_, rfl⟩

theorem applyPushOp_shape (update doc : Value) (fn : String) (fs m : List (String × Value))
    (h : applyPushOp update doc fn fs = Except.ok m) :
    m = fs ∨
      ((∃ v, m = assocSet fs fn v) ∧ opTruthyAt update "$push" fn = true) := by
  unfold applyPushOp at h
  unfold opTruthyAt
  rcases hop : opObject update "$push" with _ | op <;> rw [hop] at h
  · simp only [pure, Except.pure] at h
    injection h with h
    exact Or.inl h.symm
  · cases hc : truthy (jsIndexProp op fn)
    · simp [hc, pure, Except.pure] at h
      exact Or.inl h.symm
    · simp only [hc, if_true, bind, Except.bind, pure, Except.pure] at h
      rcases hcc : jsConcat (jsNullish (getValueByPath doc fn) (Value.vArr 0 ValueList.nil))
          (if isEachOperation (jsIndexProp op fn) = true then jsIndexProp (jsIndexProp op fn) "$each"
           else Value.vArr 0 (ValueList.cons (jsIndexProp op fn) ValueList.nil)) with e | r <;>
        rw [hcc] at h <;> simp at h
      exact Or.inr ⟨⟨r, h.symm⟩, hc⟩

theorem applyPopOp_shape (update doc : Value) (fn : String) (fs m : List (String × Value))
    (h : applyPopOp update doc fn fs = Except.ok m) :
    m = fs ∨
      ((∃ v, m = assocSet fs fn v) ∧ opDefinedAt update "$pop" fn = true) := by
  unfold applyPopOp at h
  unfold opDefinedAt
  rcases hop : opObject update "$pop" with _ | op <;> rw [hop] at h
  · simp only [pure, Except.pure] at h
    injection h with h
    exact Or.inl h.symm
  · simp only [pure, Except.pure] at h
    cases hv : jsIndexProp op fn <;> rw [hv] at h <;> simp only [isUndefV]
    case vUndef =>
      simp only [pure, Except.pure] at h
      injection h with h
      exact Or.inl h.symm
    case vNum n =>
      by_cases h1 : n = 1
      · simp only [h1, if_pos rfl, bind, Except.bind, pure, Except.pure] at h
        rcases hs : jsSliceDropLast (jsNullish (getValueByPath doc fn) (Value.vArr 0 ValueList.nil)) with e | r <;>
          rw [hs] at h <;> simp at h
        exact Or.inr ⟨⟨r, h.symm⟩, by rw [hv]; rfl⟩
      · by_cases h2 : n = -1
        · simp only [h1, h2, if_neg, if_pos rfl, bind, Except.bind, pure, Except.pure] at h
          rcases hs : jsSliceDropFirst (jsNullish (getValueByPath doc fn) (Value.vArr 0 ValueList.nil)) with e | r <;>
            rw [hs] at h <;> simp at h
          exact Or.inr ⟨⟨r, h.symm⟩, by rw [hv]; rfl⟩
        · simp [h1, h2, pure, Except.pure] at h
          exact Or.inr ⟨⟨_, h.symm⟩, by rw [hv]; rfl⟩
    all_goals
      simp only [pure, Except.pure] at h
      injection h with h
      exact Or.inr ⟨⟨_, h.symm⟩, by rw [hv]; rfl⟩

theorem except_bind_ok {α β : Type} {x : Except String α} {g : α → Except String β} {m : β}
    (h : x >>= g = Except.ok m) : ∃ v, x = Except.ok v ∧ g v = Except.ok m := by
  cases x with
  | error e => simp [Bind.bind, Except.bind] at h
  | ok v => exact ⟨v, rfl, by simpa [Bind.bind, Except.bind] using h⟩

theorem applyFieldOps_keys (update doc : Value) (f : TrackedField)
    (fs m : List (String × Value)) (h : applyFieldOps update doc f fs = Except.ok m)
    (k : String) (hk : k ∈ m.map Prod.fst) :
    k ∈ fs.map Prod.fst ∨ patchNamesKey update k = true := by
  unfold applyFieldOps at h
  obtain ⟨fs2, hp, h⟩ := except_bind_ok h
  obtain ⟨fs5, hq, h⟩ := except_bind_ok h
  simp only [pure, Except.pure, Except.ok.injEq] at h
  subst h
  rcases keys_of_shape (applyMaxOp_shape update doc f.value
      (applyMinOp update doc f.value (applyMulOp update doc f.value
        (applyIncOp update doc f.value fs5)))) k hk with hk | ⟨hkf, hc⟩
  case inr.intro => subst hkf; exact Or.inr (by simp [patchNamesKey, hc])
  rcases keys_of_shape (applyMinOp_shape update doc f.value
      (applyMulOp update doc f.value (applyIncOp update doc f.value fs5))) k hk
    with hk | ⟨hkf, hc⟩
  case inr.intro => subst hkf; exact Or.inr (by simp [patchNamesKey, hc])
  rcases keys_of_shape (applyMulOp_shape update doc f.value
      (applyIncOp update doc f.value fs5)) k hk with hk | ⟨hkf, hc⟩
  case inr.intro => subst hkf; exact Or.inr (by simp [patchNamesKey, hc])
  rcases keys_of_shape (applyIncOp_shape update doc f.value fs5) k hk with hk | ⟨hkf, hc⟩
  case inr.intro => subst hkf; exact Or.inr (by simp [patchNamesKey, hc])
  rcases keys_of_shape (applyPopOp_shape update doc f.value _ fs5 hq) k hk with hk | ⟨hkf, hc⟩
  case inr.intro => subst hkf; exact Or.inr (by simp [patchNamesKey, hc])
  rcases keys_of_shape (applyPullAllOp_shape update doc f.value
      (applyPullOp update doc f.value fs2)) k hk with hk | ⟨hkf, hc⟩
  case inr.intro => subst hkf; exact Or.inr (by simp [patchNamesKey, hc])
  rcases keys_of_shape (applyPullOp_shape update doc f.value fs2) k hk with hk | ⟨hkf, hc⟩
  case inr.intro => subst hkf; exact Or.inr (by simp [patchNamesKey, hc])
  rcases keys_of_shape (applyPushOp_shape update doc f.value
      (applyAddToSetOp update doc f.value f.arrayKey fs) fs2 hp) k hk with hk | ⟨hkf, hc⟩
  case inr.intro => subst hkf; exact Or.inr (by simp [patchNamesKey, hc])
  rcases keys_of_shape (applyAddToSetOp_shape update doc f.value f.arrayKey fs) k hk
    with hk | ⟨hkf, hc⟩
  case inr.intro => subst hkf; exact Or.inr (by simp [patchNamesKey, hc])
  exact Or.inl hk

theorem extractUpdateFieldsFold_keys : ∀ (tfs : TrackedFieldList) (update doc : Value)
    (fs m : List (String × Value)),
    extractUpdateFieldsFold update doc tfs fs = Except.ok m →
    ∀ k, k ∈ m.map Prod.fst → k ∈ fs.map Prod.fst ∨ patchNamesKey update k = true
  | TrackedFieldList.nil, update, doc, fs, m, h, k, hk => by
      simp only [extractUpdateFieldsFold, Except.ok.injEq] at h
      subst h
      exact Or.inl hk
  | TrackedFieldList.cons f rest, update, doc, fs, m, h, k, hk => by
      simp only [extractUpdateFieldsFold] at h
      obtain ⟨fs1, h1, h2⟩ := except_bind_ok h
      rcases extractUpdateFieldsFold_keys rest update doc fs1 m h2 k hk with hk1 | hp
      · exact applyFieldOps_keys update doc f fs fs1 h1 k hk1
      · exact Or.inr hp

theorem foldl_keys_gen (step : List (String × Value) → (String × Value) → List (String × Value))
    (cond : String × Value → Bool)
    (hstep : ∀ fs kv k, k ∈ (step fs kv).map Prod.fst →
      k ∈ fs.map Prod.fst ∨ (cond kv && kv.1 == k) = true) :
    ∀ (l : List (String × Value)) (fs0 : List (String × Value)) (k : String),
      k ∈ (l.foldl step fs0).map Prod.fst →
      k ∈ fs0.map Prod.fst ∨ l.any (fun kv => cond kv && kv.1 == k) = true
  | [], _, _, h => Or.inl h
  | kv :: tl, fs0, k, h => by
      rcases foldl_keys_gen step cond hstep tl (step fs0 kv) k h with h1 | h1
      · rcases hstep fs0 kv k h1 with h2 | h2
        · exact Or.inl h2
        · exact Or.inr (by simp only [List.any_cons, h2, Bool.true_or])
      · exact Or.inr (by simp only [List.any_cons, h1, Bool.or_true])

theorem directFields_keys (update : Value) (k : String)
    (h : k ∈ (directFields update).map Prod.fst) :
    ((jsOwnEntries update).any (fun kv => !(startsWithDollar kv.1) && kv.1 == k)) = true := by
  rw [directFields] at h
  have hstep : ∀ fs (kv : String × Value) k,
      k ∈ ((fun fs kv => if startsWithDollar kv.1 then fs
            else assocSet fs kv.1 kv.2) fs kv).map Prod.fst →
      k ∈ fs.map Prod.fst ∨ (!(startsWithDollar kv.1) && kv.1 == k) = true := by
    intro fs kv k hk
    simp only [] at hk
    by_cases hd : startsWithDollar kv.1
    · rw [if_pos hd] at hk
      exact Or.inl hk
    · rw [if_neg hd] at hk
      rcases assocSet_keys fs kv.1 k kv.2 hk with h2 | h2
      · exact Or.inl h2
      · exact Or.inr (by simp [hd, h2])
  rcases foldl_keys_gen _ (fun kv => !(startsWithDollar kv.1)) hstep
      (jsOwnEntries update) [] k h with h1 | h1
  · simp at h1
  · exact h1

theorem applySetLike_keys (update : Value) (name : String) (fs : List (String × Value))
    (k : String) (h : k ∈ (applySetLike update name fs).map Prod.fst) :
    k ∈ fs.map Prod.fst ∨ opHasKey update name k = true := by
  rw [applySetLike] at h
  have hstep : ∀ fs (kv : String × Value) k,
      k ∈ ((fun fs kv => assocSet fs kv.1 kv.2) fs kv).map Prod.fst →
      k ∈ fs.map Prod.fst ∨ ((fun (_ : String × Value) => true) kv && kv.1 == k) = true := by
    intro fs kv k hk
    rcases assocSet_keys fs kv.1 k kv.2 hk with h2 | h2
    · exact Or.inl h2
    · exact Or.inr (by simp [h2])
  cases ho : opObject update name with
  | none =>
      rw [ho] at h
      exact Or.inl h
  | some o =>
      rw [ho] at h
      rcases foldl_keys_gen _ (fun _ => true) hstep (jsOwnEntries o) fs k h with h1 | h1
      · exact Or.inl h1
      · refine Or.inr ?_
        rw [opHasKey, ho]
        simpa using h1

theorem applyUnsetOp_keys (update : Value) (fs : List (String × Value))
    (k : String) (h : k ∈ (applyUnsetOp update fs).map Prod.fst) :
    k ∈ fs.map Prod.fst ∨ opHasKey update "$unset" k = true := by
  rw [applyUnsetOp] at h
  have hstep : ∀ fs (kv : String × Value) k,
      k ∈ ((fun fs kv => assocSet fs kv.1 Value.vUndef) fs kv).map Prod.fst →
      k ∈ fs.map Prod.fst ∨ ((fun (_ : String × Value) => true) kv && kv.1 == k) = true := by
    intro fs kv k hk
    rcases assocSet_keys fs kv.1 k Value.vUndef hk with h2 | h2
    · exact Or.inl h2
    · exact Or.inr (by simp [h2])
  cases ho : opObject update "$unset" with
  | none =>
      rw [ho] at h
      exact Or.inl h
  | some o =>
      rw [ho] at h
      rcases foldl_keys_gen _ (fun _ => true) hstep (jsOwnEntries o) fs k h with h1 | h1
      · exact Or.inl h1
      · refine Or.inr ?_
        rw [opHasKey, ho]
        simpa using h1

theorem extractUpdateFields_keys (update doc : Value) (tfs : TrackedFieldList)
    (m : List (String × Value)) (h : extractUpdateFields update doc tfs = Except.ok m)
    (k : String) (hk : k ∈ m.map Prod.fst) : patchNamesKey update k = true := by
  rw [extractUpdateFields] at h
  by_cases ht : truthy update
  · rw [if_neg (by simp [ht])] at h
    rcases extractUpdateFieldsFold_keys tfs update doc _ m h k hk with h3 | hp
    · rcases applyUnsetOp_keys update _ k h3 with h2 | hp2
      · rcases applySetLike_keys update "$setOnInsert" _ k h2 with h1 | hp1
        · rcases applySetLike_keys update "$set" _ k h1 with h0 | hp0
          · have hd := directFields_keys update k h0
            simp [patchNamesKey, hd]
          · simp [patchNamesKey, hp0]
        · simp [patchNamesKey, hp1]
      · simp [patchNamesKey, hp2]
    · exact hp
  · rw [if_pos (by simp [ht])] at h
    simp only [Except.ok.injEq] at h
    subst h
    simp at hk

/-- Claim C6 (counterexample to the first half): the update
`\x7b$set:\x7by:1\x7d\x7d` against a tracked-field configuration naming only
`x` produces the output map `[(y,1)]` — the `$set` block copies every key of
its operand, tracked or not, so the output key `y` does not name the single
tracked path `x`. -/
theorem c6_counterexample :
    extractUpdateFields (mkObj 0 [("$set", mkObj 1 [("y", Value.vNum 1)])]) (mkObj 2 [])
        (mkTFL [genField "x"]) = Except.ok [("y", Value.vNum 1)] ∧
    (genField "x").value = "x" ∧ ("y" : String) ≠ "x" :=
  ⟨rfl, rfl, by decide⟩

/-- Claim C6 (amended): every key of the simulator's output map is a key the
patch names — a non-`$` direct key, a key of the `$set`/`$setOnInsert`/
`$unset` operands, or an operand key firing one of the per-field operators
(`patchNamesKey`) — but not necessarily a tracked path; and conversely any
key the patch does not name, in particular any untouched tracked field, is
absent from the output map, so overlaying the output onto the original
snapshot leaves untouched data unchanged. -/
theorem c6_keys_and_frame (update originalDoc : Value) (tfs : TrackedFieldList)
    (m : List (String × Value)) (h : extractUpdateFields update originalDoc tfs = Except.ok m)
    (k : String) :
    (k ∈ m.map Prod.fst → patchNamesKey update k = true) ∧
    (patchNamesKey update k = false → assocLookup m k = none) := by
  constructor
  · exact fun hk => extractUpdateFields_keys update originalDoc tfs m h k hk
  · intro hp
    apply assocLookup_eq_none
    intro hk
    rw [extractUpdateFields_keys update originalDoc tfs m h k hk] at hp
    simp at hp

/-- Claim C6 (witness): in the counterexample run, the untouched tracked
field `x` is not named by the patch and is indeed absent from the output
map. -/
theorem c6_witness :
    patchNamesKey (mkObj 0 [("$set", mkObj 1 [("y", Value.vNum 1)])]) "x" = false ∧
    assocLookup [("y", Value.vNum 1)] "x" = none :=
  ⟨rfl,
   (c6_keys_and_frame (mkObj 0 [("$set", mkObj 1 [("y", Value.vNum 1)])]) (mkObj 2 [])
      (mkTFL [genField "x"]) [("y", Value.vNum 1)] rfl "x").2 rfl⟩

theorem walkSegmentsE_ok : ∀ (v : Value) (segs : List String),
    walkSegmentsE v segs = Except.ok (walkSegments v segs)
  | Value.vUndef, [] => rfl
  | Value.vNull, [] => rfl
  | Value.vBool _, [] => rfl
  | Value.vNum _, [] => rfl
  | Value.vStr _, [] => rfl
  | Value.vDate _ _, [] => rfl
  | Value.vArr _ _, [] => rfl
  | Value.vObj _ _, [] => rfl
  | Value.vUndef, _ :: _ => rfl
  | Value.vNull, _ :: _ => rfl
  | Value.vBool _, _ :: _ => rfl
  | Value.vNum _, _ :: _ => rfl
  | Value.vStr _, _ :: _ => rfl
  | Value.vArr oid xs, seg :: rest => by
      show (match parseIndex seg with
            | some i => walkSegmentsE (listGetInt xs.toList i) rest
            | none => Except.ok Value.vUndef) =
          Except.ok (match parseIndex seg with
            | some i => walkSegments (listGetInt xs.toList i) rest
            | none => Value.vUndef)
      cases parseIndex seg with
      | some i => exact walkSegmentsE_ok _ rest
      | none => rfl
  | Value.vObj oid fs, seg :: rest =>
      walkSegmentsE_ok (jsIndexProp (Value.vObj oid fs) seg) rest
  | Value.vDate oid ms, seg :: rest =>
      walkSegmentsE_ok (jsIndexProp (Value.vDate oid ms) seg) rest

theorem getValueByPathE_ok (obj : Value) (path : String) :
    getValueByPathE obj path = Except.ok (getValueByPath obj path) := by
  rw [getValueByPathE, getValueByPath]
  by_cases ht : truthy obj
  · rw [if_neg (by simp [ht]), if_neg (by simp [ht])]
    have hacc : jsAccessE obj path = Except.ok (jsIndexProp obj path) := by
      cases obj <;> first | rfl | simp [truthy] at ht
    show (jsAccessE obj path >>= fun current =>
        if truthy current then pure current else walkSegmentsE obj (splitOnDot path)) = _
    rw [hacc]
    show (if truthy (jsIndexProp obj path) then pure (jsIndexProp obj path)
        else walkSegmentsE obj (splitOnDot path)) = _
    by_cases hc : truthy (jsIndexProp obj path)
    · simp [hc, pure, Except.pure]
    · simp only [hc, if_false, Bool.false_eq_true]
      exact walkSegmentsE_ok obj (splitOnDot path)
  · rw [if_pos (by simp [ht]), if_pos (by simp [ht])]

theorem processSimpleArrayChanges_nonarray (field : TrackedField) (b a od ud : Value)
    (pf : Option String) (bi ai : Value) (hb : isArrV b = false) (ha : isArrV a = false) :
    processSimpleArrayChanges field b a od ud pf bi ai = [] := by
  have hb2 : asArray b = [] := by cases b <;> simp_all [isArrV, asArray]
  have ha2 : asArray a = [] := by cases a <;> simp_all [isArrV, asArray]
  simp [processSimpleArrayChanges, hb2, ha2, diffSimpleArray, dedupBy, dedupByAux]

set_option maxHeartbeats 2000000 in
theorem processCustomKeyArrayChanges_nonarray (f : TrackedField) (b a od ud : Value)
    (pf : Option String) (hb : isArrV b = false) (ha : isArrV a = false) :
    processCustomKeyArrayChanges f b a od ud pf = [] := by
  have hb2 : asArray b = [] := by cases b <;> simp_all [isArrV, asArray]
  have ha2 : asArray a = [] := by cases a <;> simp_all [isArrV, asArray]
  cases f with
  | mk v at0 ak vf mk0 cf ch =>
      rw [processCustomKeyArrayChanges]
      by_cases hk : truthyStrOpt ak
      · rw [if_neg (by simp [hk])]
        simp only [hb2, ha2]
        rfl
      · rw [if_pos (by simp [hk])]

theorem getTrackedChanges_null_undef : ∀ (tfs : TrackedFieldList),
    getTrackedChanges Value.vNull Value.vUndef tfs = []
  | TrackedFieldList.nil => rfl
  | TrackedFieldList.cons f rest => by
      rw [getTrackedChanges, getTrackedChanges_null_undef rest, List.append_nil]
      by_cases hv : f.value = ""
      · simp [hv]
      · rw [if_neg hv]
        have h1 : getValueByPath Value.vNull f.value = Value.vUndef := rfl
        have h2 : getValueByPath Value.vUndef f.value = Value.vUndef := rfl
        simp only [h1, h2]
        by_cases hs : f.arrayType = some ArrayType.simple
        · simp only [hs, if_true, if_pos]
          exact processSimpleArrayChanges_nonarray f Value.vUndef Value.vUndef Value.vNull
            Value.vUndef none Value.vNull Value.vNull rfl rfl
        · rw [if_neg hs]
          by_cases hck : f.arrayType = some ArrayType.customKey
          · rw [if_pos hck]
            exact processCustomKeyArrayChanges_nonarray f Value.vUndef Value.vUndef Value.vNull
              Value.vUndef none rfl rfl
          · rw [if_neg hck]
            simp [processGenericFieldChanges, existsVal]

/-- Claim C9: the diff pipeline never throws.  (i) Path resolution performed
with the JS throwing property read (`getValueByPathE`) always succeeds and
agrees with the total `getValueByPath` — missing paths and null/undefined
roots resolve to `undefined` rather than raising; (ii) a simple-array diff
whose inputs are both non-arrays coerces them to empty lists and emits no
records; (iii) the diff entry point on a null original and undefined updated
document terminates normally with the empty change list for every tracked
configuration. -/
theorem c9_pipeline_no_throw (obj : Value) (path : String) (field : TrackedField)
    (b a od ud bi ai : Value) (pf : Option String) (tfs : TrackedFieldList) :
    getValueByPathE obj path = Except.ok (getValueByPath obj path) ∧
    (isArrV b = false → isArrV a = false →
      processSimpleArrayChanges field b a od ud pf bi ai = []) ∧
    getTrackedChanges Value.vNull Value.vUndef tfs = [] :=
  ⟨getValueByPathE_ok obj path,
   fun hb ha => processSimpleArrayChanges_nonarray field b a od ud pf bi ai hb ha,
   getTrackedChanges_null_undef tfs⟩

/-- Claim C9 (witness): the no-throw theorem at concrete inputs — a missing
dotted path on an empty object resolves to `undefined` without raising, a
simple-array diff over `undefined`/`null` inputs yields no records, and the
diff of a null document against an undefined one over one tracked field is
empty. -/
theorem c9_witness :
    getValueByPathE (mkObj 7 []) "a.b" = Except.ok Value.vUndef ∧
    processSimpleArrayChanges (genField "t") Value.vUndef Value.vNull (mkObj 7 []) (mkObj 7 [])
      none Value.vNull Value.vNull = [] ∧
    getTrackedChanges Value.vNull Value.vUndef (mkTFL [genField "t"]) = [] := by
  obtain ⟨h1, h2, h3⟩ := c9_pipeline_no_throw (mkObj 7 []) "a.b" (genField "t") Value.vUndef
    Value.vNull (mkObj 7 []) (mkObj 7 []) Value.vNull Value.vNull none (mkTFL [genField "t"])
  exact ⟨h1, h2 rfl rfl, h3⟩

theorem exists_mem_cons {α : Type} (a : α) (l : List α) (p : α → Prop) :
    (∃ y ∈ a :: l, p y) ↔ p a ∨ ∃ y ∈ l, p y := by
  simp [List.mem_cons, or_and_right, exists_or]

theorem dedupByAux_subset {α : Type} (eq : α → α → Bool) : ∀ (seen l : List α) (y : α),
    y ∈ dedupByAux eq seen l → y ∈ l
  | seen, [], y, h => by simp [dedupByAux] at h
  | seen, a :: l, y, h => by
      rw [dedupByAux] at h
      by_cases hs : seen.any (fun z => eq z a) = true
      · rw [if_pos hs] at h
        exact List.mem_cons_of_mem a (dedupByAux_subset eq seen l y h)
      · rw [if_neg hs] at h
        rcases List.mem_cons.mp h with h1 | h2
        · exact h1 ▸ List.mem_cons_self a l
        · exact List.mem_cons_of_mem a (dedupByAux_subset eq (a :: seen) l y h2)

theorem dedupByAux_mem_class : ∀ (seen l : List Value) (x : Value),
    (∃ y ∈ dedupByAux strictEq seen l, strictEq x y = true) ↔
    ((∃ y ∈ l, strictEq x y = true) ∧ ¬(∃ s ∈ seen, strictEq x s = true))
  | seen, [], x => by simp [dedupByAux]
  | seen, a :: l, x => by
      by_cases h : seen.any (fun y => strictEq y a) = true
      · rw [dedupByAux, if_pos h, dedupByAux_mem_class seen l x,
          exists_mem_cons a l (fun y => strictEq x y = true)]
        obtain ⟨s, hs, hsa⟩ := List.any_eq_true.mp h
        constructor
        · rintro ⟨hl, hns⟩
          exact ⟨Or.inr hl, hns⟩
        · rintro ⟨hxa | hl, hns⟩
          · exact absurd ⟨s, hs, strictEq_trans hxa (strictEq_symm s a ▸ hsa)⟩ hns
          · exact ⟨hl, hns⟩
      · rw [dedupByAux, if_neg h,
          exists_mem_cons a (dedupByAux strictEq (a :: seen) l)
            (fun y => strictEq x y = true),
          dedupByAux_mem_class (a :: seen) l x,
          exists_mem_cons a l (fun y => strictEq x y = true),
          exists_mem_cons a seen (fun s => strictEq x s = true)]
        constructor
        · rintro (hxa | ⟨hl, hns2⟩)
          · refine ⟨Or.inl hxa, ?_⟩
            rintro ⟨s, hs, hxs⟩
            exact h (List.any_eq_true.mpr ⟨s, hs,
              strictEq_trans (strictEq_symm x s ▸ hxs) hxa⟩)
          · exact ⟨Or.inr hl, fun hse => hns2 (Or.inr hse)⟩
        · rintro ⟨hly, hns⟩
          by_cases hxa : strictEq x a = true
          · exact Or.inl hxa
          · rcases hly with hxa2 | hl
            · exact absurd hxa2 hxa
            · exact Or.inr ⟨hl, fun hor => hor.elim hxa hns⟩

theorem diff_added_class (before after : List Value) (x : Value) :
    (∃ y ∈ (dedupBy strictEq after).filter
        (fun x2 => !(before.any (fun y => strictEq y x2))), strictEq x y = true) ↔
    ((∃ y ∈ after, strictEq x y = true) ∧ ¬(∃ y ∈ before, strictEq x y = true)) := by
  constructor
  · rintro ⟨y, hy, hxy⟩
    obtain ⟨hyd, hp⟩ := List.mem_filter.mp hy
    refine ⟨⟨y, dedupByAux_subset strictEq [] after y hyd, hxy⟩, ?_⟩
    rintro ⟨z, hz, hxz⟩
    have hzy : strictEq z y = true := strictEq_trans (strictEq_symm x z ▸ hxz) hxy
    have : before.any (fun w => strictEq w y) = true := List.any_eq_true.mpr ⟨z, hz, hzy⟩
    rw [this] at hp
    simp at hp
  · rintro ⟨hex, hnb⟩
    obtain ⟨w, hw, hxw⟩ := (dedupByAux_mem_class [] after x).mpr ⟨hex, by simp⟩
    refine ⟨w, List.mem_filter.mpr ⟨hw, ?_⟩, hxw⟩
    by_cases hb : before.any (fun y => strictEq y w) = true
    · obtain ⟨z, hz, hzw⟩ := List.any_eq_true.mp hb
      exact absurd ⟨z, hz, strictEq_trans hxw (strictEq_symm z w ▸ hzw)⟩ hnb
    · simp [hb]

/-- Claim C10: the primitive-list diff decides membership by SameValueZero
identity (`strictEq`), not structural equality.  An identity class of `x` is
represented in `added` exactly when it occurs in `after` and no identical
element occurs in `before` (symmetrically for `removed`); and concretely, two
structurally equal (`isEqual`) but non-identical one-field objects produce
both one `add` and one `remove` record carrying the same stringified value. -/
theorem c10_identity_not_structural (before after : List Value) (x : Value) :
    ((∃ y ∈ (diffSimpleArray before after).added, strictEq x y = true) ↔
      ((∃ y ∈ after, strictEq x y = true) ∧ ¬(∃ y ∈ before, strictEq x y = true))) ∧
    ((∃ y ∈ (diffSimpleArray before after).removed, strictEq x y = true) ↔
      ((∃ y ∈ before, strictEq x y = true) ∧ ¬(∃ y ∈ after, strictEq x y = true))) ∧
    (isEqual (mkObj 1 [("a", Value.vNum 1)]) (mkObj 2 [("a", Value.vNum 1)]) = true ∧
     strictEq (mkObj 1 [("a", Value.vNum 1)]) (mkObj 2 [("a", Value.vNum 1)]) = false ∧
     processSimpleArrayChanges (genField "t")
        (mkArr 3 [mkObj 1 [("a", Value.vNum 1)]]) (mkArr 4 [mkObj 2 [("a", Value.vNum 1)]])
        Value.vNull Value.vNull none Value.vNull Value.vNull =
      [{ field_name := "t", from_value := StrVal.nullv,
         to_value := StrVal.str "\x7b\"a\":1\x7d",
         change_type := ChangeType.add, context := none },
       { field_name := "t", from_value := StrVal.str "\x7b\"a\":1\x7d",
         to_value := StrVal.nullv,
         change_type := ChangeType.remove, context := none }]) :=
  ⟨diff_added_class before after x, diff_added_class after before x, rfl, rfl, rfl⟩

theorem flatMap_nil_of_forall {α β : Type} : ∀ (l : List α) (f : α → List β),
    (∀ x ∈ l, f x = []) → l.flatMap f = []
  | [], _, _ => rfl
  | a :: l, f, h => by
      rw [List.flatMap_cons, h a (List.mem_cons_self a l),
        flatMap_nil_of_forall l f (fun x hx => h x (List.mem_cons_of_mem a hx))]
      rfl

theorem diffSimpleArray_self (l : List Value) :
    (diffSimpleArray l l).added = [] ∧ (diffSimpleArray l l).removed = [] := by
  constructor <;>
  · apply List.filter_eq_nil_iff.mpr
    intro x hx
    have hxl : x ∈ l := dedupByAux_subset strictEq [] l x hx
    simp
    exact ⟨x, hxl, strictEq_refl x⟩

theorem processSimple_diag (f : TrackedField) (v od ud : Value) (pf : Option String)
    (bi ai : Value) : processSimpleArrayChanges f v v od ud pf bi ai = [] := by
  obtain ⟨ha, hr⟩ := diffSimpleArray_self (asArray v)
  simp [processSimpleArrayChanges, ha, hr]

theorem processGeneric_diag (f : TrackedField) (v od ud : Value) (pf : Option String)
    (bi ai : Value) : processGenericFieldChanges f v v od ud pf bi ai = [] := by
  by_cases he : existsVal v = true
  · simp [processGenericFieldChanges, he, areValuesEqual_refl]
  · simp [processGenericFieldChanges, he]

set_option maxHeartbeats 2000000 in
mutual

theorem processCustomKey_diag (f : TrackedField) (v od ud : Value) (pf : Option String) :
    processCustomKeyArrayChanges f v v od ud pf = [] := by
  cases f with
  | mk v2 at0 ak vf mk0 cf ch =>
      rw [processCustomKeyArrayChanges]
      by_cases hk : truthyStrOpt ak = true
      · rw [if_neg (by simp [hk])]
        apply flatMap_nil_of_forall
        intro key hkey
        dsimp only
        by_cases he : existsVal (assocGet (arrayToKeyMap (asArray v) (ak.getD "")) key) = true
        · rw [if_neg (by simp [he]), if_neg (by simp [he]), if_neg (by simp [he])]
          cases ch with
          | none => rfl
          | some children =>
              exact processSub_diag children v2
                (assocGet (arrayToKeyMap (asArray v) (ak.getD "")) key) od ud
                (some (pf.getD v2))
                (extractLogContext cf od ud
                  (assocGet (arrayToKeyMap (asArray v) (ak.getD "")) key)
                  (assocGet (arrayToKeyMap (asArray v) (ak.getD "")) key))
        · rw [if_pos (by simp [he])]
      · rw [if_pos (by simp [hk])]

theorem processSub_diag (children : TrackedFieldList) (fv : String) (item od ud : Value)
    (pf : Option String) (pc : Option ObjFields) :
    processSubFieldChanges children fv item item od ud pf pc = [] := by
  cases children with
  | nil => rw [processSubFieldChanges.eq_def]
  | cons sub rest =>
      rw [processSubFieldChanges.eq_def]
      dsimp only
      rw [processSub_diag rest fv item od ud pf pc, List.append_nil]
      by_cases hs : sub.arrayType = some ArrayType.simple
      · rw [if_pos hs, processSimple_diag sub (getValueByPath item sub.value) od ud
          (some ((pf.getD fv) ++ "." ++ sub.value)) item item]
        cases pc <;> rfl
      · rw [if_neg hs]
        by_cases hck : sub.arrayType = some ArrayType.customKey ∧ truthyStrOpt sub.arrayKey = true
        · rw [if_pos hck, processCustomKey_diag sub (getValueByPath item sub.value) od ud
            (some ((pf.getD fv) ++ "." ++ sub.value))]
          cases pc <;> rfl
        · rw [if_neg hck, processGeneric_diag sub (getValueByPath item sub.value) od ud
            (some ((pf.getD fv) ++ "." ++ sub.value)) item item]
          cases pc <;> rfl

end

theorem getTrackedChanges_diag : ∀ (tfs : TrackedFieldList) (doc : Value),
    getTrackedChanges doc doc tfs = []
  | TrackedFieldList.nil, doc => rfl
  | TrackedFieldList.cons f rest, doc => by
      rw [getTrackedChanges, getTrackedChanges_diag rest doc, List.append_nil]
      by_cases hv : f.value = ""
      · simp [hv]
      · rw [if_neg hv]
        dsimp only
        by_cases hs : f.arrayType = some ArrayType.simple
        · rw [if_pos hs]
          exact processSimple_diag f (getValueByPath doc f.value) doc doc none
            Value.vNull Value.vNull
        · rw [if_neg hs]
          by_cases hck : f.arrayType = some ArrayType.customKey
          · rw [if_pos hck]
            exact processCustomKey_diag f (getValueByPath doc f.value) doc doc none
          · rw [if_neg hck]
            exact processGeneric_diag f (getValueByPath doc f.value) doc doc none
              Value.vNull Value.vNull

/-- Claim C3: diffing a document against itself yields no change records,
for every document and every tracked-field configuration — generic fields,
simple arrays and keyed-object arrays with nested children alike. -/
theorem c3_diff_idempotent (doc : Value) (tfs : TrackedFieldList) :
    getTrackedChanges doc doc tfs = [] :=
  getTrackedChanges_diag tfs doc

theorem filterMap_flatMap {α β γ : Type} : ∀ (l : List α) (F : α → List β) (g : β → Option γ),
    (l.flatMap F).filterMap g = l.flatMap (fun a => (F a).filterMap g)
  | [], _, _ => rfl
  | a :: l, F, g => by
      rw [List.flatMap_cons, List.filterMap_append, List.flatMap_cons,
        filterMap_flatMap l F g]

theorem dedupByAux_beq_mem : ∀ (seen l : List String) (x : String),
    x ∈ dedupByAux (fun a b => a == b) seen l ↔ (x ∈ l ∧ x ∉ seen)
  | seen, [], x => by simp [dedupByAux]
  | seen, a :: l, x => by
      by_cases h : seen.any (fun y => y == a) = true
      · rw [dedupByAux, if_pos h, dedupByAux_beq_mem seen l x]
        obtain ⟨s, hs, hsa⟩ := List.any_eq_true.mp h
        have hsa2 : s = a := by simpa using hsa
        subst hsa2
        constructor
        · rintro ⟨hl, hns⟩
          exact ⟨List.mem_cons_of_mem s hl, hns⟩
        · rintro ⟨hl, hns⟩
          rcases List.mem_cons.mp hl with h1 | h1
          · exact absurd (h1 ▸ hs) hns
          · exact ⟨h1, hns⟩
      · rw [dedupByAux, if_neg h]
        rw [List.mem_cons, dedupByAux_beq_mem (a :: seen) l x]
        simp only [List.mem_cons, not_or]
        constructor
        · rintro (h1 | ⟨h1, h2, h3⟩)
          · subst h1
            refine ⟨Or.inl rfl, fun hx => ?_⟩
            exact h (List.any_eq_true.mpr ⟨x, hx, by simp⟩)
          · exact ⟨Or.inr h1, h3⟩
        · rintro ⟨h1 | h1, h2⟩
          · exact Or.inl h1
          · by_cases hxa : x = a
            · exact Or.inl hxa
            · exact Or.inr ⟨h1, hxa, h2⟩

theorem dedupByAux_beq_nodup : ∀ (seen l : List String),
    (dedupByAux (fun a b => a == b) seen l).Nodup
  | seen, [] => List.nodup_nil
  | seen, a :: l => by
      by_cases h : seen.any (fun y => y == a) = true
      · rw [dedupByAux, if_pos h]
        exact dedupByAux_beq_nodup seen l
      · rw [dedupByAux, if_neg h]
        refine List.nodup_cons.mpr ⟨?_, dedupByAux_beq_nodup (a :: seen) l⟩
        intro hmem
        exact ((dedupByAux_beq_mem (a :: seen) l a).mp hmem).2 (List.mem_cons_self a seen)

theorem dedup_append_swap_perm (k1 k2 : List String) :
    (dedupBy (fun a b => a == b) (k1 ++ k2)).Perm (dedupBy (fun a b => a == b) (k2 ++ k1)) := by
  apply List.perm_of_nodup_nodup_toFinset_eq (dedupByAux_beq_nodup [] (k1 ++ k2))
    (dedupByAux_beq_nodup [] (k2 ++ k1))
  apply List.toFinset.ext
  intro x
  show x ∈ dedupByAux (fun a b => a == b) [] (k1 ++ k2) ↔
    x ∈ dedupByAux (fun a b => a == b) [] (k2 ++ k1)
  rw [dedupByAux_beq_mem [] (k1 ++ k2) x, dedupByAux_beq_mem [] (k2 ++ k1) x]
  simp [List.mem_append, or_comm]

theorem addsProj_ctxmap (pc : ObjFields) : ∀ (l : List FieldLog),
    addsProj (l.map (fun subLog =>
      match subLog.context with
      | none => { subLog with context := some pc }
      | some c => { subLog with context := some (mergeCtxEntries pc c) })) = addsProj l
  | [] => rfl
  | r :: tl => by
      have ih := addsProj_ctxmap pc tl
      simp only [addsProj] at ih ⊢
      cases r with
      | mk fn fv tv ct cx =>
          cases cx with
          | none =>
              simp only [List.map_cons, List.filterMap_cons]
              by_cases hct : ct = ChangeType.add
              · rw [if_pos hct]
                exact congrArg (List.cons (fn, fv, tv)) ih
              · rw [if_neg hct]
                exact ih
          | some c =>
              simp only [List.map_cons, List.filterMap_cons]
              by_cases hct : ct = ChangeType.add
              · rw [if_pos hct]
                exact congrArg (List.cons (fn, fv, tv)) ih
              · rw [if_neg hct]
                exact ih

theorem removesSwProj_ctxmap (pc : ObjFields) : ∀ (l : List FieldLog),
    removesSwProj (l.map (fun subLog =>
      match subLog.context with
      | none => { subLog with context := some pc }
      | some c => { subLog with context := some (mergeCtxEntries pc c) })) = removesSwProj l
  | [] => rfl
  | r :: tl => by
      have ih := removesSwProj_ctxmap pc tl
      simp only [removesSwProj] at ih ⊢
      cases r with
      | mk fn fv tv ct cx =>
          cases cx with
          | none =>
              simp only [List.map_cons, List.filterMap_cons]
              by_cases hct : ct = ChangeType.remove
              · rw [if_pos hct]
                exact congrArg (List.cons (fn, tv, fv)) ih
              · rw [if_neg hct]
                exact ih
          | some c =>
              simp only [List.map_cons, List.filterMap_cons]
              by_cases hct : ct = ChangeType.remove
              · rw [if_pos hct]
                exact congrArg (List.cons (fn, tv, fv)) ih
              · rw [if_neg hct]
                exact ih

theorem processGeneric_swap (f : TrackedField) (b a od ud od2 ud2 : Value)
    (pf : Option String) (bi ai bi2 ai2 : Value) :
    addsProj (processGenericFieldChanges f b a od ud pf bi ai) =
    removesSwProj (processGenericFieldChanges f a b od2 ud2 pf bi2 ai2) := by
  by_cases hb : existsVal b = true <;> by_cases ha : existsVal a = true <;>
    simp only [processGenericFieldChanges, hb, ha, Bool.not_true, Bool.not_false,
      Bool.false_and, Bool.true_and, Bool.and_false, Bool.and_true, Bool.false_eq_true,
      if_false, if_true]
  · by_cases h1 : areValuesEqual b a = true <;> by_cases h2 : areValuesEqual a b = true <;>
      simp [h1, h2, addsProj, removesSwProj]
  · simp [addsProj, removesSwProj]
  · simp [addsProj, removesSwProj]
  · simp [addsProj, removesSwProj]

theorem filterMap_const_some {α β : Type} (g : α → β) : ∀ (l : List α),
    l.filterMap (fun x => some (g x)) = l.map g
  | [] => rfl
  | a :: l => by rw [List.filterMap_cons, List.map_cons, filterMap_const_some g l]

theorem filterMap_const_none {α β : Type} : ∀ (l : List α),
    l.filterMap (fun _ => (none : Option β)) = []
  | [] => rfl
  | a :: l => by rw [List.filterMap_cons, filterMap_const_none l]

theorem processSimple_swap (f : TrackedField) (b a od ud od2 ud2 : Value)
    (pf : Option String) (bi ai bi2 ai2 : Value) :
    addsProj (processSimpleArrayChanges f b a od ud pf bi ai) =
    removesSwProj (processSimpleArrayChanges f a b od2 ud2 pf bi2 ai2) := by
  simp [processSimpleArrayChanges, addsProj, removesSwProj, diffSimpleArray,
    List.filterMap_append, List.filterMap_map, Function.comp_def,
    filterMap_const_some, filterMap_const_none]

theorem addsProj_append (x y : List FieldLog) :
    addsProj (x ++ y) = addsProj x ++ addsProj y := by
  simp [addsProj, List.filterMap_append]

theorem removesSwProj_append (x y : List FieldLog) :
    removesSwProj (x ++ y) = removesSwProj x ++ removesSwProj y := by
  simp [removesSwProj, List.filterMap_append]

set_option maxHeartbeats 2000000 in
mutual

theorem processCustomKey_swap (f : TrackedField) (b a od ud od2 ud2 : Value)
    (pf : Option String) :
    (addsProj (processCustomKeyArrayChanges f b a od ud pf)).Perm
      (removesSwProj (processCustomKeyArrayChanges f a b od2 ud2 pf)) := by
  cases f with
  | mk v2 at0 ak vf mk0 cf ch =>
      rw [processCustomKeyArrayChanges]
      rw [processCustomKeyArrayChanges]
      by_cases hk : truthyStrOpt ak = true
      · rw [if_neg (by simp [hk]), if_neg (by simp [hk])]
        dsimp only
        simp only [addsProj, removesSwProj]
        rw [filterMap_flatMap, filterMap_flatMap]
        refine ((dedup_append_swap_perm
          ((arrayToKeyMap (asArray b) (ak.getD "")).map Prod.fst)
          ((arrayToKeyMap (asArray a) (ak.getD "")).map Prod.fst)).flatMap_right _).trans ?_
        apply List.Perm.flatMap_left
        intro key hkey
        dsimp only
        by_cases heb : existsVal (assocGet (arrayToKeyMap (asArray b) (ak.getD "")) key) = true <;>
          by_cases hea : existsVal (assocGet (arrayToKeyMap (asArray a) (ak.getD "")) key) = true
        · rw [if_neg (by simp [heb, hea]), if_neg (by simp [heb, hea]),
            if_neg (by simp [heb, hea]), if_neg (by simp [heb, hea]),
            if_neg (by simp [heb, hea]), if_neg (by simp [heb, hea])]
          cases ch with
          | none => exact List.Perm.refl _
          | some children =>
              exact processSub_swap children v2
                (assocGet (arrayToKeyMap (asArray b) (ak.getD "")) key)
                (assocGet (arrayToKeyMap (asArray a) (ak.getD "")) key) od ud od2 ud2
                (some (pf.getD v2)) _ _
        · simp [heb, hea]
        · simp [heb, hea]
        · simp [heb, hea]
      · rw [if_pos (by simp [hk]), if_pos (by simp [hk])]
        exact List.Perm.refl _

theorem processSub_swap (children : TrackedFieldList) (fv : String) (bI aI od ud od2 ud2 : Value)
    (pf : Option String) (pc pc2 : Option ObjFields) :
    (addsProj (processSubFieldChanges children fv bI aI od ud pf pc)).Perm
      (removesSwProj (processSubFieldChanges children fv aI bI od2 ud2 pf pc2)) := by
  cases children with
  | nil =>
      conv_lhs => rw [processSubFieldChanges.eq_def]
      conv_rhs => rw [processSubFieldChanges.eq_def]
      exact List.Perm.refl _
  | cons sub rest =>
      conv_lhs => rw [processSubFieldChanges.eq_def]
      conv_rhs => rw [processSubFieldChanges.eq_def]
      dsimp only
      rw [addsProj_append, removesSwProj_append]
      refine List.Perm.append ?_ (processSub_swap rest fv bI aI od ud od2 ud2 pf pc pc2)
      have hctx1 : ∀ (l : List FieldLog),
          addsProj (match pc with
            | none => l
            | some pcv => l.map (fun subLog =>
                match subLog.context with
                | none => { subLog with context := some pcv }
                | some c => { subLog with context := some (mergeCtxEntries pcv c) })) =
          addsProj l := by
        intro l
        cases pc with
        | none => rfl
        | some pcv => exact addsProj_ctxmap pcv l
      have hctx2 : ∀ (l : List FieldLog),
          removesSwProj (match pc2 with
            | none => l
            | some pcv => l.map (fun subLog =>
                match subLog.context with
                | none => { subLog with context := some pcv }
                | some c => { subLog with context := some (mergeCtxEntries pcv c) })) =
          removesSwProj l := by
        intro l
        cases pc2 with
        | none => rfl
        | some pcv => exact removesSwProj_ctxmap pcv l
      rw [hctx1, hctx2]
      by_cases hs : sub.arrayType = some ArrayType.simple
      · rw [if_pos hs]
        rw [if_pos hs]
        exact List.Perm.of_eq (processSimple_swap sub
          (getValueByPath bI sub.value) (getValueByPath aI sub.value)
          od ud od2 ud2 (some ((pf.getD fv) ++ "." ++ sub.value)) bI aI aI bI)
      · rw [if_neg hs]
        rw [if_neg hs]
        by_cases hck : sub.arrayType = some ArrayType.customKey ∧ truthyStrOpt sub.arrayKey = true
        · rw [if_pos hck]
          rw [if_pos hck]
          exact processCustomKey_swap sub
            (getValueByPath bI sub.value) (getValueByPath aI sub.value)
            od ud od2 ud2 (some ((pf.getD fv) ++ "." ++ sub.value))
        · rw [if_neg hck]
          rw [if_neg hck]
          exact List.Perm.of_eq (processGeneric_swap sub
            (getValueByPath bI sub.value) (getValueByPath aI sub.value)
            od ud od2 ud2 (some ((pf.getD fv) ++ "." ++ sub.value)) bI aI aI bI)

end

theorem getTrackedChanges_swap : ∀ (tfs : TrackedFieldList) (b a : Value),
    (addsProj (getTrackedChanges b a tfs)).Perm (removesSwProj (getTrackedChanges a b tfs))
  | TrackedFieldList.nil, b, a => List.Perm.refl _
  | TrackedFieldList.cons f rest, b, a => by
      conv_lhs => rw [getTrackedChanges]
      conv_rhs => rw [getTrackedChanges]
      rw [addsProj_append, removesSwProj_append]
      refine List.Perm.append ?_ (getTrackedChanges_swap rest b a)
      by_cases hv : f.value = ""
      · rw [if_pos hv]
        rw [if_pos hv]
        exact List.Perm.refl _
      · rw [if_neg hv]
        rw [if_neg hv]
        dsimp only
        by_cases hs : f.arrayType = some ArrayType.simple
        · rw [if_pos hs]
          rw [if_pos hs]
          exact List.Perm.of_eq (processSimple_swap f
            (getValueByPath b f.value) (getValueByPath a f.value) b a a b none
            Value.vNull Value.vNull Value.vNull Value.vNull)
        · rw [if_neg hs]
          rw [if_neg hs]
          by_cases hck : f.arrayType = some ArrayType.customKey
          · rw [if_pos hck]
            rw [if_pos hck]
            exact processCustomKey_swap f
              (getValueByPath b f.value) (getValueByPath a f.value) b a a b none
          · rw [if_neg hck]
            rw [if_neg hck]
            exact List.Perm.of_eq (processGeneric_swap f
              (getValueByPath b f.value) (getValueByPath a f.value) b a a b none
              Value.vNull Value.vNull Value.vNull Value.vNull)

/-- Claim C4: the direction-reversal law.  Projecting each change record to
its `(fieldName, fromValue, toValue)` triple, the `add` records of
`diff(before, after)` are exactly — as a multiset, `List.Perm` — the
direction-reversed `remove` records of `diff(after, before)`, and vice
versa, across generic fields, simple-array diffs and keyed-object-array
diffs with nested children (contexts aside, which depend on the direction by
construction; the keyed walk visits union keys in a direction-dependent
order, so the correspondence is a permutation, not list equality). -/
theorem c4_direction_reversal (before after : Value) (tfs : TrackedFieldList) :
    (addsProj (getTrackedChanges before after tfs)).Perm
      (removesSwProj (getTrackedChanges after before tfs)) ∧
    (removesSwProj (getTrackedChanges before after tfs)).Perm
      (addsProj (getTrackedChanges after before tfs)) :=
  ⟨getTrackedChanges_swap tfs before after,
   (getTrackedChanges_swap tfs after before).symm⟩
